import Mathlib

/-!
# Ordered binary codec of `LegacyDec` (package `math`, `legacy_dec_improvements.go`)

A shallow embedding of `LegacyDec.Marshal`, `LegacyDec.MarshalTo` and
`LegacyDec.Unmarshal`, and of `MultiSendHooks.BeforeSend` (package `types` of
`x/bank`, `hooks_abdex.go`), followed by theorems about the encoded form, the
round trip, order preservation, the error cases and the hook loop.

Conventions of the embedding:

* a Go `byte` is a `Nat` below `256`; `byte` and `subByte` are the conversion
  and the subtraction of `uint8`, both modulo `256`;
* a `[]byte` is a `List Nat`;
* a `*big.Int` is an `Option Int` (`none` is the nil pointer);
* a Go `error` is an `Option String` (`none` is the nil error), or the
  `Except.error` branch where a function returns a value or an error;
* a run-time panic (index or slice bounds out of range) is the `none` of
  the outer `Option` returned by `Unmarshal`;
* a method with a pointer receiver takes the receiver state and returns
  the new one.
-/

namespace LegacyDecCodec

/-! ## Bytes and the library functions the codec calls -/

/-- The Go conversion `byte(n)` of a non-negative `int`: truncation to 8 bits. -/
def byte (n : Nat) : Nat := n % 256

/-- Subtraction `a - b` of two `uint8` values, wrapping modulo `256`. -/
def subByte (a b : Nat) : Nat := (a % 256 + (256 - b % 256)) % 256

/-- A byte slice whose elements are all bytes. -/
def IsBytes (data : List Nat) : Prop := ∀ b ∈ data, b < 256

instance (data : List Nat) : Decidable (IsBytes data) := by
  unfold IsBytes; infer_instance

/-- Go library function `big.Int.Bytes` on a magnitude: the big-endian bytes of `n` without
leading zero bytes (the empty slice for `0`). -/
def Bytes (n : Nat) : List Nat :=
  if _h : n = 0 then [] else Bytes (n / 256) ++ [n % 256]
decreasing_by omega

/-- Go library function `big.Int.SetBytes` on a magnitude: the value of a big-endian byte
slice, accumulated from the most significant byte. -/
def SetBytes (buf : List Nat) : Nat :=
  buf.foldl (fun acc b => acc * 256 + b) 0

/-- Go library function `big.Int.Sign`: `-1` for a negative, `0` for zero and `1` for a positive
integer. -/
def Sign (i : Int) : Int :=
  if i < 0 then -1 else if i = 0 then 0 else 1

/-- Go library function `bytes.Compare`: lexicographic comparison of two byte slices, giving
`-1`, `0` or `1`. -/
def Compare : List Nat → List Nat → Int
  | [], [] => 0
  | [], _ :: _ => -1
  | _ :: _, [] => 1
  | a :: as, b :: bs =>
    if a < b then -1 else if b < a then 1 else Compare as bs

/-- The built-in `copy(dst, src)`: the first `min (len dst) (len src)`
elements of `dst` are overwritten with those of `src`. -/
def copy (dst src : List Nat) : List Nat :=
  let n := min dst.length src.length
  src.take n ++ dst.drop n

/-- The slice expression `data[lo:hi]`, which panics (`none`) unless
`lo ≤ hi ≤ len data`. -/
def slice (data : List Nat) (lo hi : Nat) : Option (List Nat) :=
  if lo ≤ hi ∧ hi ≤ data.length then some ((data.drop lo).take (hi - lo)) else none

/-- The unsigned big-endian value of a byte sequence as the specification
words it: the sum of the bytes weighted by powers of `256`, `0` for the
empty sequence. -/
def BE : List Nat → Nat
  | [] => 0
  | b :: rest => b * 256 ^ rest.length + BE rest

/-! ## The decimal type -/

/-- The decimal type, `type LegacyDec struct { i *big.Int }`. -/
structure LegacyDec where
  i : Option Int
deriving DecidableEq, Repr

/-- The integer a decimal stands for; an absent integer counts as zero. -/
def LegacyDec.val (d : LegacyDec) : Int :=
  match d.i with
  | none => 0
  | some x => x

/-- Modelled from the spec: `LegacyDec.IsInValidRange` and the bound it
compares with are declared outside the files at hand. The specification
says a value is valid only if its magnitude does not exceed a configured
maximum; `maxMagnitude` is that maximum. -/
def LegacyDec.IsInValidRange (maxMagnitude : Nat) (d : LegacyDec) : Bool :=
  decide (d.val.natAbs ≤ maxMagnitude)

/-! ## The codec -/

/-- The encoder, `func (d LegacyDec) Marshal() ([]byte, error)`. -/
def LegacyDec.Marshal (d : LegacyDec) : Except String (List Nat) :=
  let i : Int := match d.i with
    | none => 0
    | some x => x
  let absI : Nat := i.natAbs
  let rawBytes := Bytes absI
  if rawBytes.length > 255 then
    Except.error "integer too large, exceeds 255 bytes"
  else if Sign i < 0 then
    Except.ok ([0] ++ [subByte 255 (byte rawBytes.length)]
      ++ rawBytes.map (fun b => subByte 255 b))
  else
    Except.ok ([1] ++ [byte rawBytes.length] ++ rawBytes)

/-- What `MarshalTo` leaves behind: the buffer, the count `n`, the error and
the receiver. -/
structure MarshalToResult where
  data : List Nat
  n : Nat
  err : Option String
  recv : LegacyDec
deriving DecidableEq, Repr

/-- The encoder into a buffer,
`func (d *LegacyDec) MarshalTo(data []byte) (n int, err error)`. -/
def LegacyDec.MarshalTo (d : LegacyDec) (data : List Nat) : MarshalToResult :=
  -- `i := d.i; if i == nil { i = new(big.Int) }` sets a local that is not read again
  match d.Marshal with
  | Except.error err => { data := data, n := 0, err := some err, recv := d }
  | Except.ok bz =>
    if bz.length > data.length then
      { data := data, n := 0, err := some "buffer too small", recv := d }
    else
      { data := copy data bz, n := bz.length, err := none, recv := d }

/-- The decoder, `func (d *LegacyDec) Unmarshal(data []byte) error`, for a
non-nil receiver: the result is the receiver after the call and the error, or
`none` if the call panics. -/
def LegacyDec.Unmarshal (maxMagnitude : Nat) (d : LegacyDec) (data : List Nat) :
    Option (LegacyDec × Option String) :=
  if data.length = 0 then
    -- `d = nil` assigns the local pointer only
    some (d, none)
  else
    let d : LegacyDec := match d.i with
      | none => { i := some 0 }
      | some _ => d
    if data.length < 2 then
      some (d, some "invalid encoding: too short")
    else do
      let sign ← data[0]?
      let length ← if sign = 0 then (do let b ← data[1]?; pure (subByte 255 b))
        else data[1]?
      if data.length < 2 + length then
        some (d, some "invalid encoding: content length mismatch")
      else do
        let content ← slice data 2 (2 + length)
        let d : LegacyDec :=
          if sign = 0 then
            let inverted := content.map (fun b => subByte 255 b)
            { i := some (-(SetBytes inverted : Int)) }
          else
            { i := some (SetBytes content : Int) }
        if !d.IsInValidRange maxMagnitude then
          some (d, some "decimal out of range")
        else
          some (d, none)

/-- The receiver after `if d.i == nil { d.i = new(big.Int) }`. -/
def LegacyDec.init (d : LegacyDec) : LegacyDec :=
  match d.i with
  | none => { i := some 0 }
  | some _ => d

/-- Modelled from the spec: `LegacyDec.IsZero` is declared outside the files
at hand. The specification treats a decimal with an absent integer as numeric
zero, so a decimal is zero when the integer it stands for is `0`. -/
def LegacyDec.IsZero (d : LegacyDec) : Bool :=
  decide (d.val = 0)

/-- The declared content length that `Unmarshal` reads from the header of
`data`: `255 - data[1]` if `data[0] = 0`, else `data[1]`, in exact
arithmetic. -/
def declaredLength (s l : Nat) : Nat :=
  if s = 0 then 255 - l else l

/-- The integer that the decoder of the specification (steps 3 to 7)
reconstructs from `data`: with `s = data[0]`, `l = data[1]`, `L` the declared
length and `content = data[2 : 2+L]`, it is `-BE (map (255 - ·) content)` if
`s = 0` and `BE content` otherwise, in exact arithmetic. -/
def decodedInteger (data : List Nat) : Int :=
  let s := data.getD 0 0
  let l := data.getD 1 0
  let content := (data.drop 2).take (declaredLength s l)
  if s = 0 then -((BE (content.map (fun b => 255 - b)) : Nat) : Int)
  else ((BE content : Nat) : Int)

/-! ## The codec with its byte arithmetic and its accesses checked

The same two functions once more, with every `uint8` operation and every
index or slice expression replaced by one that reports a fault instead of
wrapping modulo `256` or reading out of bounds. -/

/-- What can go wrong silently or by a panic: an index or slice expression
out of bounds, or a `uint8` result outside `0..255`. -/
inductive Fault where
  | outOfBounds : Fault
  | wrap : Fault
deriving DecidableEq, Repr

/-- Subtraction `a - b` of two `uint8` values that reports a fault where the
machine subtraction would wrap. -/
def checkedSub (a b : Nat) : Except Fault Nat :=
  if b ≤ a then Except.ok (a - b) else Except.error Fault.wrap

/-- The conversion `byte(n)` that reports a fault where the machine
conversion would truncate. -/
def checkedByte (n : Nat) : Except Fault Nat :=
  if n < 256 then Except.ok n else Except.error Fault.wrap

/-- The index expression `data[k]` that reports a fault out of bounds. -/
def checkedIndex (data : List Nat) (k : Nat) : Except Fault Nat :=
  match data[k]? with
  | some b => Except.ok b
  | none => Except.error Fault.outOfBounds

/-- The slice expression `data[lo:hi]` that reports a fault out of bounds. -/
def checkedSlice (data : List Nat) (lo hi : Nat) : Except Fault (List Nat) :=
  if lo ≤ hi ∧ hi ≤ data.length then Except.ok ((data.drop lo).take (hi - lo))
  else Except.error Fault.outOfBounds

/-- The encoder `Marshal` with checked byte arithmetic: a fault, or what
`Marshal` returns. -/
def LegacyDec.MarshalChecked (d : LegacyDec) : Except Fault (Except String (List Nat)) :=
  let i : Int := match d.i with
    | none => 0
    | some x => x
  let absI : Nat := i.natAbs
  let rawBytes := Bytes absI
  if rawBytes.length > 255 then
    Except.ok (Except.error "integer too large, exceeds 255 bytes")
  else if Sign i < 0 then do
    let len ← checkedByte rawBytes.length
    let invertedLen ← checkedSub 255 len
    let invertedBytes ← rawBytes.mapM (fun b => checkedSub 255 b)
    Except.ok (Except.ok ([0] ++ [invertedLen] ++ invertedBytes))
  else do
    let len ← checkedByte rawBytes.length
    Except.ok (Except.ok ([1] ++ [len] ++ rawBytes))

/-- The decoder `Unmarshal` with checked byte arithmetic and checked
accesses: a fault, or the receiver after the call and the error. -/
def LegacyDec.UnmarshalChecked (maxMagnitude : Nat) (d : LegacyDec) (data : List Nat) :
    Except Fault (LegacyDec × Option String) :=
  if data.length = 0 then
    Except.ok (d, none)
  else
    let d : LegacyDec := match d.i with
      | none => { i := some 0 }
      | some _ => d
    if data.length < 2 then
      Except.ok (d, some "invalid encoding: too short")
    else do
      let sign ← checkedIndex data 0
      let length ← if sign = 0 then (do let b ← checkedIndex data 1; checkedSub 255 b)
        else checkedIndex data 1
      if data.length < 2 + length then
        Except.ok (d, some "invalid encoding: content length mismatch")
      else do
        let content ← checkedSlice data 2 (2 + length)
        let d : LegacyDec ←
          if sign = 0 then (do
            let inverted ← content.mapM (fun b => checkedSub 255 b)
            Except.ok { i := some (-(SetBytes inverted : Int)) })
          else
            Except.ok { i := some (SetBytes content : Int) }
        if !d.IsInValidRange maxMagnitude then
          Except.ok (d, some "decimal out of range")
        else
          Except.ok (d, none)

end LegacyDecCodec

namespace BankTypes

/-! ## The send hooks (package `types` of `x/bank`) -/

/-- Go `error` values that `MultiSendHooks.BeforeSend` handles: an error
returned by a hook, of some type `ε`, or the wrapper that `errors.Join`
builds, which holds the non-nil errors it was given, one or two of them
here. -/
inductive GoError (ε : Type) where
  | hook (e : ε) : GoError ε
  | join1 (a : GoError ε) : GoError ε
  | join2 (a b : GoError ε) : GoError ε
deriving DecidableEq, Repr

/-- Go library function `errors.Join` with two arguments: nil if both are
nil, otherwise a wrapper of the non-nil arguments in their order. -/
def Join {ε : Type} (a b : Option (GoError ε)) : Option (GoError ε) :=
  match a, b with
  | none, none => none
  | some x, none => some (GoError.join1 x)
  | none, some y => some (GoError.join1 y)
  | some x, some y => some (GoError.join2 x y)

/-- The hook errors a Go error wraps, in order, through any depth of
`errors.Join` wrappers. -/
def GoError.flatten {ε : Type} : GoError ε → List ε
  | GoError.hook e => [e]
  | GoError.join1 a => a.flatten
  | GoError.join2 a b => a.flatten ++ b.flatten

/-- The hook errors that an `error` value wraps, in order: none for nil. -/
def errorsOf {ε : Type} : Option (GoError ε) → List ε
  | none => []
  | some err => err.flatten

/-- An implementation of `interface SendHooks`: `name` identifies it, and
`BeforeSend` gives the error it returns (`none` for nil) from the calls made
so far and its arguments `(ctx, fromAddr, toAddr, amt)`, of type `α`. -/
structure SendHooks (α ε : Type) where
  name : Nat
  BeforeSend : List (Nat × α) → α → Option ε

/-- The slice type `type MultiSendHooks []SendHooks`. -/
def MultiSendHooks (α ε : Type) : Type := List (SendHooks α ε)

/-- The constructor `func NewMultiSendHooks(hooks ...SendHooks) MultiSendHooks`. -/
def NewMultiSendHooks {α ε : Type} (hooks : List (SendHooks α ε)) : MultiSendHooks α ε :=
  hooks

/-- The method `func (h MultiSendHooks) BeforeSend(ctx, fromAddr, toAddr, amt) error`:
`calls` is the record of the hook calls made so far, each a hook name with
its arguments; the result is the record after the loop and the returned
error. -/
def MultiSendHooks.BeforeSend {α ε : Type} (h : MultiSendHooks α ε) (args : α)
    (calls : List (Nat × α)) : List (Nat × α) × Option (GoError ε) :=
  List.foldl
    (fun (st : List (Nat × α) × Option (GoError ε)) (hook : SendHooks α ε) =>
      (st.1 ++ [(hook.name, args)],
        Join st.2 ((hook.BeforeSend st.1 args).map GoError.hook)))
    (calls, none) h

/-- The errors that the hooks of a list return when each is called once, in
list order, with `args`, starting from the record `calls`. -/
def hookErrors {α ε : Type} : List (SendHooks α ε) → α → List (Nat × α) → List (Option ε)
  | [], _, _ => []
  | hook :: rest, args, calls =>
    hook.BeforeSend calls args :: hookErrors rest args (calls ++ [(hook.name, args)])

end BankTypes

namespace LegacyDecCodec

/-! ## Facts about the library functions -/

theorem Sign_neg_iff (i : Int) : Sign i < 0 ↔ i < 0 := by
  unfold Sign
  split_ifs <;> omega

theorem Bytes_zero : Bytes 0 = [] := by
  rw [Bytes]; simp

theorem Bytes_pos (n : Nat) (h : n ≠ 0) : Bytes n = Bytes (n / 256) ++ [n % 256] := by
  rw [Bytes]; simp [h]

theorem Bytes_eq_digits (n : Nat) : Bytes n = (Nat.digits 256 n).reverse := by
  induction n using Nat.strong_induction_on with
  | _ n ih =>
    by_cases h : n = 0
    · subst h; simp [Bytes_zero]
    · rw [Bytes_pos n h, ih (n / 256) (by omega),
        Nat.digits_def' (by norm_num) (Nat.pos_of_ne_zero h)]
      simp

theorem SetBytes_append (l : List Nat) (b : Nat) :
    SetBytes (l ++ [b]) = SetBytes l * 256 + b := by
  simp [SetBytes, List.foldl_append]

theorem SetBytes_eq_ofDigits (l : List Nat) : SetBytes l = Nat.ofDigits 256 l.reverse := by
  induction l using List.reverseRecOn with
  | nil => simp [SetBytes]
  | append_singleton l b ih =>
    rw [SetBytes_append, ih]
    simp [Nat.ofDigits_cons]
    ring

theorem SetBytes_Bytes (n : Nat) : SetBytes (Bytes n) = n := by
  rw [SetBytes_eq_ofDigits, Bytes_eq_digits, List.reverse_reverse, Nat.ofDigits_digits]

theorem Bytes_isBytes (n : Nat) : IsBytes (Bytes n) := by
  intro b hb
  rw [Bytes_eq_digits, List.mem_reverse] at hb
  exact Nat.digits_lt_base (by norm_num) hb

theorem Bytes_length_le_iff (n k : Nat) : (Bytes n).length ≤ k ↔ n < 256 ^ k := by
  rw [Bytes_eq_digits, List.length_reverse]
  constructor
  · intro h
    calc n < 256 ^ (Nat.digits 256 n).length := Nat.lt_base_pow_length_digits (by norm_num)
      _ ≤ 256 ^ k := Nat.pow_le_pow_right (by norm_num) h
  · intro h
    by_cases hn : n = 0
    · subst hn; simp
    · have h1 := Nat.base_pow_length_digits_le 256 n (by norm_num) hn
      have h2 : 256 ^ (Nat.digits 256 n).length < 256 ^ (k + 1) := by
        calc 256 ^ (Nat.digits 256 n).length ≤ 256 * n := h1
          _ < 256 * 256 ^ k := by omega
          _ = 256 ^ (k + 1) := by ring
      have h3 := (Nat.pow_lt_pow_iff_right (by norm_num : 1 < 256)).mp h2
      omega

theorem Bytes_SetBytes (m : List Nat) (hm : IsBytes m) (hlead : m.head? ≠ some 0) :
    Bytes (SetBytes m) = m := by
  rw [Bytes_eq_digits, SetBytes_eq_ofDigits,
    Nat.digits_ofDigits 256 (by norm_num) m.reverse]
  · simp
  · intro l hl
    exact hm l (List.mem_reverse.mp hl)
  · intro hne
    rw [List.getLast_reverse]
    intro h0
    apply hlead
    cases m with
    | nil => simp at hne
    | cons a t => simp at h0; simp [h0]

theorem SetBytes_cons (b : Nat) (l : List Nat) :
    SetBytes (b :: l) = b * 256 ^ l.length + SetBytes l := by
  induction l using List.reverseRecOn generalizing b with
  | nil => simp [SetBytes]
  | append_singleton l c ih =>
    rw [← List.cons_append, SetBytes_append, SetBytes_append, ih]
    simp [pow_succ]
    ring

theorem SetBytes_eq_BE (l : List Nat) : SetBytes l = BE l := by
  induction l with
  | nil => simp [SetBytes, BE]
  | cons b l ih => rw [SetBytes_cons, BE, ih]

theorem SetBytes_lt (l : List Nat) (hl : IsBytes l) : SetBytes l < 256 ^ l.length := by
  induction l with
  | nil => simp [SetBytes]
  | cons b l ih =>
    rw [SetBytes_cons]
    have hb : b < 256 := hl b (List.mem_cons_self _ _)
    have ht := ih (fun x hx => hl x (List.mem_cons_of_mem _ hx))
    have : (b + 1) * 256 ^ l.length ≤ 256 * 256 ^ l.length :=
      Nat.mul_le_mul_right _ (by omega)
    simp only [List.length_cons, pow_succ]
    nlinarith

theorem subByte_255 (b : Nat) (hb : b < 256) : subByte 255 b = 255 - b := by
  unfold subByte; omega

theorem byte_of_le (n : Nat) (hn : n ≤ 255) : byte n = n := by
  unfold byte; omega

theorem map_subByte_isBytes (l : List Nat) : IsBytes (l.map (fun b => subByte 255 b)) := by
  intro b hb
  rw [List.mem_map] at hb
  obtain ⟨a, _, rfl⟩ := hb
  unfold subByte; omega

theorem map_subByte_eq (l : List Nat) (hl : IsBytes l) :
    l.map (fun b => subByte 255 b) = l.map (fun b => 255 - b) := by
  apply List.map_congr_left
  intro a ha
  exact subByte_255 a (hl a ha)

theorem map_subByte_involutive (l : List Nat) (hl : IsBytes l) :
    (l.map (fun b => subByte 255 b)).map (fun b => subByte 255 b) = l := by
  rw [List.map_map]
  conv_rhs => rw [← List.map_id l]
  apply List.map_congr_left
  intro a ha
  have := hl a ha
  simp only [Function.comp, subByte, id]
  omega

theorem SetBytes_map_subByte (l : List Nat) (hl : IsBytes l) :
    SetBytes (l.map (fun b => subByte 255 b)) + SetBytes l + 1 = 256 ^ l.length := by
  induction l with
  | nil => simp [SetBytes]
  | cons b l ih =>
    have hb : b < 256 := hl b (List.mem_cons_self _ _)
    have ht := ih (fun x hx => hl x (List.mem_cons_of_mem _ hx))
    rw [List.map_cons, SetBytes_cons, SetBytes_cons, subByte_255 b hb, List.length_map]
    simp only [List.length_cons, pow_succ]
    have h1 : (255 - b) * 256 ^ l.length + b * 256 ^ l.length = 255 * 256 ^ l.length := by
      rw [← Nat.add_mul]; congr 1; omega
    omega

/-! ## Normal forms of the codec -/

theorem init_val (d : LegacyDec) : d.init.val = d.val := by
  cases d with
  | mk i => cases i <;> rfl

theorem Marshal_unfold (d : LegacyDec) :
    d.Marshal =
      if (Bytes d.val.natAbs).length > 255 then
        Except.error "integer too large, exceeds 255 bytes"
      else if d.val < 0 then
        Except.ok (0 :: subByte 255 (byte (Bytes d.val.natAbs).length)
          :: (Bytes d.val.natAbs).map (fun b => subByte 255 b))
      else
        Except.ok (1 :: byte (Bytes d.val.natAbs).length :: Bytes d.val.natAbs) := by
  cases d with
  | mk i => cases i <;> simp [LegacyDec.Marshal, LegacyDec.val, Sign_neg_iff]

theorem Unmarshal_unfold (maxMagnitude : Nat) (d : LegacyDec) (s l : Nat) (rest : List Nat) :
    LegacyDec.Unmarshal maxMagnitude d (s :: l :: rest) =
      if rest.length < (if s = 0 then subByte 255 l else l) then
        some (d.init, some "invalid encoding: content length mismatch")
      else if s = 0 then
        (if (SetBytes ((rest.take (subByte 255 l)).map (fun b => subByte 255 b)))
            ≤ maxMagnitude then
          some (⟨some (-(SetBytes ((rest.take (subByte 255 l)).map
            (fun b => subByte 255 b)) : Int))⟩, none)
        else
          some (⟨some (-(SetBytes ((rest.take (subByte 255 l)).map
            (fun b => subByte 255 b)) : Int))⟩, some "decimal out of range"))
      else
        (if SetBytes (rest.take l) ≤ maxMagnitude then
          some (⟨some (SetBytes (rest.take l) : Int)⟩, none)
        else
          some (⟨some (SetBytes (rest.take l) : Int)⟩, some "decimal out of range")) := by
  have h0 : ¬ rest.length + 1 + 1 < 2 := by omega
  by_cases hs : s = 0
  · subst hs
    by_cases hlen : rest.length < subByte 255 l
    · have h2 : rest.length + 2 < 2 + subByte 255 l := by omega
      simp [LegacyDec.Unmarshal, LegacyDec.init, hlen, h2]
    · have h2 : ¬ rest.length + 2 < 2 + subByte 255 l := by omega
      have h3 : 2 + subByte 255 l ≤ rest.length + 2 := by omega
      simp only [LegacyDec.Unmarshal, hlen, h2, h3, h0, slice, LegacyDec.IsInValidRange,
        LegacyDec.val]
      simp
      split_ifs <;> simp [Option.bind, List.map_take] <;> omega
  · by_cases hlen : rest.length < l
    · have h2 : rest.length + 2 < 2 + l := by omega
      simp [LegacyDec.Unmarshal, LegacyDec.init, hs, hlen, h2]
    · have h2 : ¬ rest.length + 2 < 2 + l := by omega
      have h3 : 2 + l ≤ rest.length + 2 := by omega
      simp only [LegacyDec.Unmarshal, hs, hlen, h2, h3, h0, slice, LegacyDec.IsInValidRange,
        LegacyDec.val]
      simp
      split_ifs <;> simp [Option.bind, List.map_take] <;> omega

theorem Bytes_length_le_255_iff (n : Nat) : (Bytes n).length ≤ 255 ↔ n < 2 ^ 2040 := by
  rw [Bytes_length_le_iff]
  norm_num

theorem Unmarshal_of_Marshal (maxMagnitude : Nat) (d recv : LegacyDec) (bz : List Nat)
    (h : d.Marshal = Except.ok bz) :
    LegacyDec.Unmarshal maxMagnitude recv bz =
      if d.val.natAbs ≤ maxMagnitude then some (⟨some d.val⟩, none)
      else some (⟨some d.val⟩, some "decimal out of range") := by
  rw [Marshal_unfold] at h
  have hB := Bytes_isBytes d.val.natAbs
  have hS := SetBytes_Bytes d.val.natAbs
  split_ifs at h with h1 h2
  · have hL : (Bytes d.val.natAbs).length ≤ 255 := by omega
    have e1 : subByte 255 (subByte 255 (byte (Bytes d.val.natAbs).length))
        = (Bytes d.val.natAbs).length := by
      unfold subByte byte; omega
    have e2 : -((d.val.natAbs : Nat) : Int) = d.val := by omega
    injection h with h
    subst h
    rw [Unmarshal_unfold]
    simp only [if_true, e1, List.length_map, lt_irrefl, if_false]
    rw [← List.length_map (Bytes d.val.natAbs) (fun b => subByte 255 b), List.take_length,
      map_subByte_involutive _ hB, hS, e2]
  · have hL : (Bytes d.val.natAbs).length ≤ 255 := by omega
    have e1 : byte (Bytes d.val.natAbs).length = (Bytes d.val.natAbs).length :=
      byte_of_le _ hL
    have e2 : ((d.val.natAbs : Nat) : Int) = d.val := by omega
    injection h with h
    subst h
    rw [Unmarshal_unfold]
    simp only [e1, one_ne_zero, if_false, lt_irrefl, List.take_length, hS, e2]

/-! ## The encoder -/

/-- C3: if `m` is the minimal big-endian byte sequence of the magnitude of
`v` (bytes only, no leading zero byte, value `|v|`) and its length `L` is at
most 255, then `Marshal` succeeds with exactly `2 + L` bytes, which are
`[1, L] ++ m` for `v ≥ 0` and `[0, 255 - L] ++ map (255 - ·) m` for `v < 0`;
the sign byte is `0` exactly when `v < 0` and `1` exactly when `v ≥ 0`. -/
theorem Marshal_encoded_form (d : LegacyDec) (m : List Nat) (hm : IsBytes m)
    (hlead : m.head? ≠ some 0) (hval : BE m = d.val.natAbs) (hL : m.length ≤ 255) :
    ∃ bz, d.Marshal = Except.ok bz ∧ bz.length = 2 + m.length ∧
      (0 ≤ d.val → bz = [1, m.length] ++ m) ∧
      (d.val < 0 → bz = [0, 255 - m.length] ++ m.map (fun b => 255 - b)) ∧
      (bz[0]? = some 0 ↔ d.val < 0) ∧ (bz[0]? = some 1 ↔ 0 ≤ d.val) := by
  have hB : Bytes d.val.natAbs = m := by
    rw [← hval, ← SetBytes_eq_BE]
    exact Bytes_SetBytes m hm hlead
  have hb : byte m.length = m.length := byte_of_le _ hL
  have hs : subByte 255 m.length = 255 - m.length := subByte_255 _ (by omega)
  rw [Marshal_unfold, hB, hb, hs, map_subByte_eq m hm]
  by_cases hneg : d.val < 0
  · refine ⟨_, by rw [if_neg (by omega), if_pos hneg], by simp; omega, ?_, ?_, ?_, ?_⟩
    · intro h; omega
    · intro _; rfl
    · simp [hneg]
    · simp; omega
  · refine ⟨_, by rw [if_neg (by omega), if_neg hneg], by simp; omega, ?_, ?_, ?_, ?_⟩
    · intro _; rfl
    · intro h; omega
    · simp [hneg]
    · simp; omega

/-- The encoded form at `v = -1000`, whose magnitude bytes are `[3, 232]`. -/
theorem Marshal_encoded_form_witness :
    IsBytes [3, 232] ∧ [3, 232].head? ≠ some 0 ∧
    BE [3, 232] = (LegacyDec.mk (some (-1000))).val.natAbs ∧
    ∃ bz, (LegacyDec.mk (some (-1000))).Marshal = Except.ok bz ∧ bz.length = 2 + 2 ∧
      (0 ≤ (LegacyDec.mk (some (-1000))).val → bz = [1, 2] ++ [3, 232]) ∧
      ((LegacyDec.mk (some (-1000))).val < 0 →
        bz = [0, 255 - 2] ++ [3, 232].map (fun b => 255 - b)) ∧
      (bz[0]? = some 0 ↔ (LegacyDec.mk (some (-1000))).val < 0) ∧
      (bz[0]? = some 1 ↔ 0 ≤ (LegacyDec.mk (some (-1000))).val) :=
  ⟨by decide, by decide, by decide,
    Marshal_encoded_form ⟨some (-1000)⟩ [3, 232] (by decide) (by decide) (by decide)
      (by decide)⟩

theorem Marshal_outcome (d : LegacyDec) :
    (d.Marshal = Except.error "integer too large, exceeds 255 bytes" ↔
      255 < (Bytes d.val.natAbs).length) ∧
    (255 < (Bytes d.val.natAbs).length ↔ 2 ^ 2040 ≤ d.val.natAbs) ∧
    ((∃ e, d.Marshal = Except.error e) ↔ 2 ^ 2040 ≤ d.val.natAbs) ∧
    ((∃ bz, d.Marshal = Except.ok bz) ↔ d.val.natAbs < 2 ^ 2040) := by
  have key := Bytes_length_le_255_iff d.val.natAbs
  rw [Marshal_unfold]
  by_cases h : (Bytes d.val.natAbs).length > 255
  · have h2 : ¬ d.val.natAbs < 2 ^ 2040 := fun hc => by
      have := key.mpr hc; omega
    simp only [if_pos h]
    refine ⟨by simp; omega, ?_, ?_, ?_⟩
    · constructor <;> intro _ <;> omega
    · simp; omega
    · simp; omega
  · have h2 : d.val.natAbs < 2 ^ 2040 := key.mp (by omega)
    simp only [if_neg h]
    refine ⟨?_, ?_, ?_, ?_⟩
    · split_ifs <;> simp <;> omega
    · constructor <;> intro _ <;> omega
    · split_ifs <;> simp <;> omega
    · split_ifs <;> simp <;> omega

theorem Marshal_length (d : LegacyDec) (bz : List Nat) (h : d.Marshal = Except.ok bz) :
    bz.length = 2 + (Bytes d.val.natAbs).length := by
  rw [Marshal_unfold] at h
  split_ifs at h <;> injection h with h <;> subst h <;> simp <;> omega

/-- C4: `Marshal` fails with "integer too large, exceeds 255 bytes" exactly
when the minimal big-endian bytes of `|v|` number more than 255, which is
exactly when `|v| ≥ 2^2040`; it fails with no other error, and it succeeds
exactly when `|v| < 2^2040`, whatever the valid numeric range is. -/
theorem Marshal_fails_iff (d : LegacyDec) :
    (d.Marshal = Except.error "integer too large, exceeds 255 bytes" ↔
      255 < (Bytes d.val.natAbs).length) ∧
    (255 < (Bytes d.val.natAbs).length ↔ 2 ^ 2040 ≤ d.val.natAbs) ∧
    ((∃ e, d.Marshal = Except.error e) ↔ 2 ^ 2040 ≤ d.val.natAbs) ∧
    ((∃ bz, d.Marshal = Except.ok bz) ↔ d.val.natAbs < 2 ^ 2040) :=
  Marshal_outcome d

/-! ## The round trip -/

/-- C1: for every decimal `d` whose magnitude is at most the configured
maximum, the maximum being below `2^2040`, `Marshal` succeeds, and
`Unmarshal` of the produced bytes into any receiver succeeds and leaves the
receiver holding the integer of `d` (zero when `d` holds no integer). -/
theorem Unmarshal_Marshal_roundtrip (maxMagnitude : Nat) (d recv : LegacyDec)
    (hmax : maxMagnitude < 2 ^ 2040) (hv : d.val.natAbs ≤ maxMagnitude) :
    ∃ bz recv2, d.Marshal = Except.ok bz ∧
      LegacyDec.Unmarshal maxMagnitude recv bz = some (recv2, none) ∧
      recv2 = ⟨some d.val⟩ ∧ recv2.val = d.val := by
  obtain ⟨bz, hbz⟩ := (Marshal_outcome d).2.2.2.mpr (lt_of_le_of_lt hv hmax)
  refine ⟨bz, ⟨some d.val⟩, hbz, ?_, rfl, rfl⟩
  rw [Unmarshal_of_Marshal maxMagnitude d recv bz hbz, if_pos hv]

/-- The round trip of `-1` into a receiver that holds `7`, with the maximum
`2^571 - 1`. -/
theorem Unmarshal_Marshal_roundtrip_witness :
    (2 ^ 571 - 1 < 2 ^ 2040) ∧ ((LegacyDec.mk (some (-1))).val.natAbs ≤ 2 ^ 571 - 1) ∧
    ∃ bz recv2, (LegacyDec.mk (some (-1))).Marshal = Except.ok bz ∧
      LegacyDec.Unmarshal (2 ^ 571 - 1) ⟨some 7⟩ bz = some (recv2, none) ∧
      recv2 = ⟨some (LegacyDec.mk (some (-1))).val⟩ ∧
      recv2.val = (LegacyDec.mk (some (-1))).val :=
  ⟨by norm_num, by norm_num [LegacyDec.val],
    Unmarshal_Marshal_roundtrip (2 ^ 571 - 1) ⟨some (-1)⟩ ⟨some 7⟩ (by norm_num)
      (by norm_num [LegacyDec.val])⟩

/-! ## The decoder -/

theorem eq_cons_cons_of_getElem? (data : List Nat) (s l : Nat) (hs : data[0]? = some s)
    (hl : data[1]? = some l) : ∃ rest, data = s :: l :: rest := by
  match data, hs, hl with
  | a :: b :: rest, hs, hl =>
    simp at hs hl
    exact ⟨rest, by rw [hs, hl]⟩

/-- C5: let `data` consist of bytes, with `data[0] = s`, `data[1] = l`,
`L = 255 - l` if `s = 0` and `L = l` otherwise, `len data ≥ 2 + L` and
`content = data[2 : 2+L]`; let `r` be `-BE (map (255 - ·) content)` if
`s = 0` and `BE content` otherwise. Then `Unmarshal` fails with "decimal out
of range" exactly when `|r|` exceeds the configured maximum, and otherwise
it succeeds and leaves the receiver holding `r`. -/
theorem Unmarshal_decoded_value (maxMagnitude : Nat) (d : LegacyDec) (data : List Nat)
    (s l L : Nat) (r : Int) (hdata : IsBytes data)
    (hs : data[0]? = some s) (hl : data[1]? = some l)
    (hL : L = if s = 0 then 255 - l else l) (hlen : 2 + L ≤ data.length)
    (hr : r = if s = 0 then
        -((BE (((data.drop 2).take L).map (fun b => 255 - b)) : Nat) : Int)
      else ((BE ((data.drop 2).take L) : Nat) : Int)) :
    ((∃ d2, LegacyDec.Unmarshal maxMagnitude d data = some (d2, some "decimal out of range"))
      ↔ maxMagnitude < r.natAbs) ∧
    (r.natAbs ≤ maxMagnitude →
      LegacyDec.Unmarshal maxMagnitude d data = some (⟨some r⟩, none)) := by
  obtain ⟨rest, rfl⟩ := eq_cons_cons_of_getElem? data s l hs hl
  have hl256 : l < 256 := hdata l (by simp)
  have hrest : IsBytes (rest.take L) := fun b hb =>
    hdata b (List.mem_cons_of_mem _ (List.mem_cons_of_mem _ (List.mem_of_mem_take hb)))
  simp only [List.length_cons] at hlen
  simp only [List.drop_succ_cons, List.drop_zero] at hr
  rw [Unmarshal_unfold, subByte_255 l hl256]
  by_cases h0 : s = 0
  · simp only [h0, if_true] at hr hL ⊢
    subst hL
    rw [if_neg (by omega), map_subByte_eq _ hrest, SetBytes_eq_BE, ← hr]
    have hn : BE ((rest.take (255 - l)).map (fun b => 255 - b)) = r.natAbs := by omega
    rw [hn]
    split_ifs with hle
    · simp; omega
    · simp; omega
  · simp only [h0, if_false] at hr hL ⊢
    subst hL
    rw [if_neg (by omega), SetBytes_eq_BE, ← hr]
    have hn : BE (rest.take L) = r.natAbs := by omega
    rw [hn]
    split_ifs with hle
    · simp; omega
    · simp; omega

/-- The decoded value of `[0, 253, 252, 23, 5]` (declared length `2`,
content `[252, 23]`, one trailing byte) is `-1000`, with the maximum
`2^571 - 1`. -/
theorem Unmarshal_decoded_value_witness :
    IsBytes [0, 253, 252, 23, 5] ∧ 2 + 2 ≤ [0, 253, 252, 23, 5].length ∧
    ((∃ d2, LegacyDec.Unmarshal (2 ^ 571 - 1) ⟨some 7⟩ [0, 253, 252, 23, 5]
        = some (d2, some "decimal out of range"))
      ↔ 2 ^ 571 - 1 < (-1000 : Int).natAbs) ∧
    ((-1000 : Int).natAbs ≤ 2 ^ 571 - 1 →
      LegacyDec.Unmarshal (2 ^ 571 - 1) ⟨some 7⟩ [0, 253, 252, 23, 5]
        = some (⟨some (-1000)⟩, none)) :=
  ⟨by decide, by decide,
    Unmarshal_decoded_value (2 ^ 571 - 1) ⟨some 7⟩ [0, 253, 252, 23, 5] 0 253 2 (-1000)
      (by decide) rfl rfl (by decide) (by decide) (by decide)⟩

/-- C6: `Unmarshal` of the empty input returns no error and leaves the
receiver as it was, for every receiver and every maximum; a receiver that
holds `7` still holds `7` afterwards, not the zero or absent value. -/
theorem Unmarshal_empty_keeps_receiver :
    (∀ (maxMagnitude : Nat) (d : LegacyDec),
      LegacyDec.Unmarshal maxMagnitude d [] = some (d, none)) ∧
    LegacyDec.Unmarshal (2 ^ 571 - 1) ⟨some 7⟩ [] = some (⟨some 7⟩, none) ∧
    (LegacyDec.mk (some 7)).val ≠ 0 ∧ (LegacyDec.mk (some 7)).i ≠ none :=
  ⟨fun _ _ => rfl, rfl, by decide, by decide⟩

/-- C7, as stated, fails: it is not the case that every input of length 0
or 1 is rejected as too short, because the empty input is accepted. -/
theorem Unmarshal_too_short_counterexample :
    ¬ (∀ (maxMagnitude : Nat) (d : LegacyDec) (data : List Nat), data.length ≤ 1 →
      ∃ d2, LegacyDec.Unmarshal maxMagnitude d data
        = some (d2, some "invalid encoding: too short")) := by
  intro h
  obtain ⟨d2, hd2⟩ := h 0 ⟨none⟩ [] (by decide)
  simp [LegacyDec.Unmarshal] at hd2

/-- C7, amended: every input of length 1 is rejected with "invalid
encoding: too short", the receiver holding the integer it held before (zero
if it held none); the input of length 0 is accepted without error. -/
theorem Unmarshal_too_short (maxMagnitude : Nat) (d : LegacyDec) (data : List Nat)
    (hlen : data.length ≤ 1) :
    (data.length = 1 →
      LegacyDec.Unmarshal maxMagnitude d data
        = some (⟨some d.val⟩, some "invalid encoding: too short")) ∧
    (data.length = 0 → LegacyDec.Unmarshal maxMagnitude d data = some (d, none)) := by
  match data, hlen with
  | [], _ => exact ⟨fun h => by simp at h, fun _ => rfl⟩
  | [b], _ =>
    refine ⟨fun _ => ?_, fun h => by simp at h⟩
    cases d with
    | mk i => cases i <;> simp [LegacyDec.Unmarshal, LegacyDec.val]

/-- The one-byte input `[1]` is too short, for a receiver that holds `7`. -/
theorem Unmarshal_too_short_witness :
    [1].length ≤ 1 ∧
    ([1].length = 1 →
      LegacyDec.Unmarshal (2 ^ 571 - 1) ⟨some 7⟩ [1]
        = some (⟨some (LegacyDec.mk (some 7)).val⟩, some "invalid encoding: too short")) ∧
    ([1].length = 0 →
      LegacyDec.Unmarshal (2 ^ 571 - 1) ⟨some 7⟩ [1] = some (⟨some 7⟩, none)) :=
  ⟨by decide, Unmarshal_too_short (2 ^ 571 - 1) ⟨some 7⟩ [1] (by decide)⟩

/-- C8: for `data` with `data[0] = s` and `data[1] = l` a byte, `Unmarshal`
fails with "invalid encoding: content length mismatch" exactly when
`len data < 2 + L`, where `L = 255 - l` if `s = 0` and `L = l` otherwise;
in that case the error is returned whatever the maximum is, before any
integer is reconstructed or range-checked. -/
theorem Unmarshal_length_mismatch (maxMagnitude : Nat) (d : LegacyDec) (data : List Nat)
    (s l : Nat) (hs : data[0]? = some s) (hl : data[1]? = some l) (hbyte : l < 256) :
    ((∃ d2, LegacyDec.Unmarshal maxMagnitude d data
        = some (d2, some "invalid encoding: content length mismatch"))
      ↔ data.length < 2 + (if s = 0 then 255 - l else l)) ∧
    (data.length < 2 + (if s = 0 then 255 - l else l) →
      LegacyDec.Unmarshal maxMagnitude d data
        = some (⟨some d.val⟩, some "invalid encoding: content length mismatch")) := by
  obtain ⟨rest, rfl⟩ := eq_cons_cons_of_getElem? data s l hs hl
  have hinit : d.init = ⟨some d.val⟩ := by
    cases d with
    | mk i => cases i <;> rfl
  rw [Unmarshal_unfold, subByte_255 l hbyte, hinit]
  simp only [List.length_cons]
  by_cases hlt : rest.length < (if s = 0 then 255 - l else l)
  · have h2 : rest.length + 1 + 1 < 2 + (if s = 0 then 255 - l else l) := by omega
    rw [if_pos hlt]
    exact ⟨⟨fun _ => h2, fun _ => ⟨_, rfl⟩⟩, fun _ => rfl⟩
  · have h2 : ¬ rest.length + 1 + 1 < 2 + (if s = 0 then 255 - l else l) := by omega
    rw [if_neg hlt]
    refine ⟨⟨fun h => ?_, fun h => absurd h h2⟩, fun h => absurd h h2⟩
    obtain ⟨d2, hd2⟩ := h
    split_ifs at hd2 <;> simp at hd2

/-- The input `[0, 250, 1, 2]` declares `255 - 250 = 5` content bytes and
carries two: the length mismatch is reported even with the maximum `0`. -/
theorem Unmarshal_length_mismatch_witness :
    (250 < 256) ∧
    ((∃ d2, LegacyDec.Unmarshal 0 ⟨some 7⟩ [0, 250, 1, 2]
        = some (d2, some "invalid encoding: content length mismatch"))
      ↔ [0, 250, 1, 2].length < 2 + (if (0 : Nat) = 0 then 255 - 250 else 250)) ∧
    ([0, 250, 1, 2].length < 2 + (if (0 : Nat) = 0 then 255 - 250 else 250) →
      LegacyDec.Unmarshal 0 ⟨some 7⟩ [0, 250, 1, 2]
        = some (⟨some (LegacyDec.mk (some 7)).val⟩,
            some "invalid encoding: content length mismatch")) :=
  ⟨by decide, Unmarshal_length_mismatch 0 ⟨some 7⟩ [0, 250, 1, 2] 0 250 rfl rfl (by decide)⟩

/-! ## The magnitude boundary -/

/-- C9: with a configured maximum below `2^2040`, every value whose
magnitude exceeds the maximum but is below `2^2040` is encoded by `Marshal`,
and `Unmarshal` of the bytes fails with "decimal out of range"; every value
whose magnitude is at most the maximum is encoded by `Marshal`, and
`Unmarshal` of the bytes succeeds with that value, which is in range. If
the maximum is below `2^600 · 10^18`, that value is an instance of the first
kind; if the maximum is at least `2^300 · 10^18`, that value is an instance
of the second kind. -/
theorem Marshal_Unmarshal_boundary (maxMagnitude : Nat) (hmax : maxMagnitude < 2 ^ 2040) :
    (∀ d recv : LegacyDec, maxMagnitude < d.val.natAbs → d.val.natAbs < 2 ^ 2040 →
      ∃ bz, d.Marshal = Except.ok bz ∧
        LegacyDec.Unmarshal maxMagnitude recv bz
          = some (⟨some d.val⟩, some "decimal out of range")) ∧
    (∀ d recv : LegacyDec, d.val.natAbs ≤ maxMagnitude →
      ∃ bz, d.Marshal = Except.ok bz ∧
        LegacyDec.Unmarshal maxMagnitude recv bz = some (⟨some d.val⟩, none) ∧
        LegacyDec.IsInValidRange maxMagnitude ⟨some d.val⟩ = true) ∧
    (maxMagnitude < 2 ^ 600 * 10 ^ 18 → ∀ recv : LegacyDec,
      ∃ bz, (LegacyDec.mk (some (2 ^ 600 * 10 ^ 18))).Marshal = Except.ok bz ∧
        LegacyDec.Unmarshal maxMagnitude recv bz
          = some (⟨some (2 ^ 600 * 10 ^ 18)⟩, some "decimal out of range")) ∧
    (2 ^ 300 * 10 ^ 18 ≤ maxMagnitude → ∀ recv : LegacyDec,
      ∃ bz, (LegacyDec.mk (some (2 ^ 300 * 10 ^ 18))).Marshal = Except.ok bz ∧
        LegacyDec.Unmarshal maxMagnitude recv bz
          = some (⟨some (2 ^ 300 * 10 ^ 18)⟩, none)) := by
  have above : ∀ d recv : LegacyDec, maxMagnitude < d.val.natAbs → d.val.natAbs < 2 ^ 2040 →
      ∃ bz, d.Marshal = Except.ok bz ∧
        LegacyDec.Unmarshal maxMagnitude recv bz
          = some (⟨some d.val⟩, some "decimal out of range") := by
    intro d recv hgt hfit
    obtain ⟨bz, hbz⟩ := (Marshal_outcome d).2.2.2.mpr hfit
    refine ⟨bz, hbz, ?_⟩
    rw [Unmarshal_of_Marshal maxMagnitude d recv bz hbz, if_neg (Nat.not_le.mpr hgt)]
  have below : ∀ d recv : LegacyDec, d.val.natAbs ≤ maxMagnitude →
      ∃ bz, d.Marshal = Except.ok bz ∧
        LegacyDec.Unmarshal maxMagnitude recv bz = some (⟨some d.val⟩, none) ∧
        LegacyDec.IsInValidRange maxMagnitude ⟨some d.val⟩ = true := by
    intro d recv hle
    obtain ⟨bz, hbz⟩ := (Marshal_outcome d).2.2.2.mpr (lt_of_le_of_lt hle hmax)
    refine ⟨bz, hbz, ?_, ?_⟩
    · rw [Unmarshal_of_Marshal maxMagnitude d recv bz hbz, if_pos hle]
    · simpa [LegacyDec.IsInValidRange, LegacyDec.val] using hle
  refine ⟨above, below, ?_, ?_⟩
  · intro hlt recv
    have hv : (LegacyDec.mk (some (2 ^ 600 * 10 ^ 18))).val.natAbs = 2 ^ 600 * 10 ^ 18 := by
      norm_num [LegacyDec.val]
    have := above ⟨some (2 ^ 600 * 10 ^ 18)⟩ recv (by rw [hv]; exact hlt)
      (by rw [hv]; norm_num)
    simpa [LegacyDec.val] using this
  · intro hge recv
    have hv : (LegacyDec.mk (some (2 ^ 300 * 10 ^ 18))).val.natAbs = 2 ^ 300 * 10 ^ 18 := by
      norm_num [LegacyDec.val]
    obtain ⟨bz, h1, h2, _⟩ := below ⟨some (2 ^ 300 * 10 ^ 18)⟩ recv (by rw [hv]; exact hge)
    exact ⟨bz, h1, by simpa [LegacyDec.val] using h2⟩

/-- The boundary with the maximum `2^571 - 1`: `2^600 · 10^18` is encoded
and then rejected as out of range on decoding. -/
theorem Marshal_Unmarshal_boundary_witness :
    (2 ^ 571 - 1 < 2 ^ 2040) ∧
    ∃ bz, (LegacyDec.mk (some (2 ^ 600 * 10 ^ 18))).Marshal = Except.ok bz ∧
      LegacyDec.Unmarshal (2 ^ 571 - 1) ⟨none⟩ bz
        = some (⟨some (2 ^ 600 * 10 ^ 18)⟩, some "decimal out of range") :=
  ⟨by norm_num,
    (Marshal_Unmarshal_boundary (2 ^ 571 - 1) (by norm_num)).2.2.1 (by norm_num) ⟨none⟩⟩

/-! ## Encoding into a buffer -/

theorem slice_copy (data bz : List Nat) (h : bz.length ≤ data.length) :
    slice (copy data bz) 0 bz.length = some bz := by
  have hmin : min data.length bz.length = bz.length := Nat.min_eq_right h
  simp [slice, copy, hmin]

/-- C10: if `Marshal` succeeds with `bz`, then `MarshalTo data` fails with
"buffer too small" exactly when `len data < len bz`, and then `n = 0`;
otherwise it returns no error and `n = len bz = 2 +` the number of magnitude
bytes, the buffer slice `data[0:n]` equals `bz` afterwards, and for a value
within the maximum `Unmarshal` of that slice leaves the receiver holding the
value. If `Marshal` fails with `e`, `MarshalTo` returns `n = 0` and `e`. -/
theorem MarshalTo_contract (maxMagnitude : Nat) (d recv : LegacyDec) (data : List Nat) :
    (∀ bz, d.Marshal = Except.ok bz →
      ((d.MarshalTo data).err = some "buffer too small" ↔ data.length < bz.length) ∧
      (data.length < bz.length →
        (d.MarshalTo data).n = 0 ∧ (d.MarshalTo data).err = some "buffer too small") ∧
      (bz.length ≤ data.length →
        (d.MarshalTo data).err = none ∧ (d.MarshalTo data).n = bz.length ∧
        bz.length = 2 + (Bytes d.val.natAbs).length ∧
        slice (d.MarshalTo data).data 0 (d.MarshalTo data).n = some bz ∧
        (d.val.natAbs ≤ maxMagnitude →
          (slice (d.MarshalTo data).data 0 (d.MarshalTo data).n).bind
            (LegacyDec.Unmarshal maxMagnitude recv) = some (⟨some d.val⟩, none)))) ∧
    (∀ e, d.Marshal = Except.error e →
      (d.MarshalTo data).n = 0 ∧ (d.MarshalTo data).err = some e) := by
  constructor
  · intro bz hbz
    have hlen := Marshal_length d bz hbz
    by_cases hsmall : data.length < bz.length
    · have hgt : bz.length > data.length := hsmall
      have hM : d.MarshalTo data = ⟨data, 0, some "buffer too small", d⟩ := by
        simp only [LegacyDec.MarshalTo, hbz, if_pos hgt]
      rw [hM]
      exact ⟨⟨fun _ => hsmall, fun _ => rfl⟩, fun _ => ⟨rfl, rfl⟩, fun h => by omega⟩
    · have hgt : ¬ bz.length > data.length := hsmall
      have hle : bz.length ≤ data.length := by omega
      have hM : d.MarshalTo data = ⟨copy data bz, bz.length, none, d⟩ := by
        simp only [LegacyDec.MarshalTo, hbz, if_neg hgt]
      rw [hM]
      refine ⟨⟨fun h => by simp at h, fun h => absurd h hsmall⟩, fun h => absurd h hsmall,
        fun _ => ⟨rfl, rfl, hlen, slice_copy data bz hle, fun hv => ?_⟩⟩
      simp only [slice_copy data bz hle, Option.some_bind]
      rw [Unmarshal_of_Marshal maxMagnitude d recv bz hbz, if_pos hv]
  · intro e he
    simp only [LegacyDec.MarshalTo, he, and_self]

/-- The value `1000` written into a six-byte buffer, and into a three-byte
buffer that is too small. -/
theorem MarshalTo_contract_witness :
    (LegacyDec.mk (some 1000)).Marshal = Except.ok [1, 2, 3, 232] ∧
    [1, 2, 3, 232].length ≤ [9, 9, 9, 9, 9, 9].length ∧
    (LegacyDec.mk (some 1000)).val.natAbs ≤ 2 ^ 571 - 1 ∧
    ((LegacyDec.mk (some 1000)).MarshalTo [9, 9, 9, 9, 9, 9]).n = [1, 2, 3, 232].length ∧
    (slice ((LegacyDec.mk (some 1000)).MarshalTo [9, 9, 9, 9, 9, 9]).data 0
      ((LegacyDec.mk (some 1000)).MarshalTo [9, 9, 9, 9, 9, 9]).n).bind
        (LegacyDec.Unmarshal (2 ^ 571 - 1) ⟨none⟩)
      = some (⟨some (LegacyDec.mk (some 1000)).val⟩, none) :=
  have hbz : (LegacyDec.mk (some 1000)).Marshal = Except.ok [1, 2, 3, 232] := by
    simp [LegacyDec.Marshal, Bytes, byte, Sign]
  have hv : (LegacyDec.mk (some 1000)).val.natAbs ≤ 2 ^ 571 - 1 := by
    norm_num [LegacyDec.val]
  have h := ((MarshalTo_contract (2 ^ 571 - 1) ⟨some 1000⟩ ⟨none⟩ [9, 9, 9, 9, 9, 9]).1
    [1, 2, 3, 232] hbz).2.2 (by decide)
  ⟨hbz, by decide, hv, h.2.1, h.2.2.2.2 hv⟩

/-! ## Order preservation -/

theorem Compare_cons_lt (a b : Nat) (x y : List Nat) (h : a < b) :
    Compare (a :: x) (b :: y) = -1 := by
  simp [Compare, h]

theorem Compare_cons_gt (a b : Nat) (x y : List Nat) (h : b < a) :
    Compare (a :: x) (b :: y) = 1 := by
  have h2 : ¬ a < b := by omega
  simp [Compare, h, h2]

theorem Compare_cons_same (a : Nat) (x y : List Nat) :
    Compare (a :: x) (a :: y) = Compare x y := by
  simp [Compare]

theorem Compare_neg_iff_of_length_eq (x y : List Nat) (hlen : x.length = y.length)
    (hx : IsBytes x) (hy : IsBytes y) :
    Compare x y < 0 ↔ SetBytes x < SetBytes y := by
  induction x generalizing y with
  | nil =>
    cases y with
    | nil => simp [Compare, SetBytes]
    | cons b y => simp at hlen
  | cons a x ih =>
    cases y with
    | nil => simp at hlen
    | cons b y =>
      have hlen2 : x.length = y.length := by simpa using hlen
      have hx2 : IsBytes x := fun c hc => hx c (List.mem_cons_of_mem _ hc)
      have hy2 : IsBytes y := fun c hc => hy c (List.mem_cons_of_mem _ hc)
      have bx := SetBytes_lt x hx2
      have bY := SetBytes_lt y hy2
      rw [SetBytes_cons, SetBytes_cons, hlen2]
      rw [hlen2] at bx
      rcases lt_trichotomy a b with h | h | h
      · rw [Compare_cons_lt a b x y h]
        have h1 : (a + 1) * 256 ^ y.length ≤ b * 256 ^ y.length :=
          Nat.mul_le_mul_right _ (by omega)
        have h2 : (a + 1) * 256 ^ y.length = a * 256 ^ y.length + 256 ^ y.length := by ring
        constructor
        · intro _; omega
        · intro _; decide
      · subst h
        rw [Compare_cons_same, ih y hlen2 hx2 hy2]
        omega
      · rw [Compare_cons_gt a b x y h]
        have h1 : (b + 1) * 256 ^ y.length ≤ a * 256 ^ y.length :=
          Nat.mul_le_mul_right _ (by omega)
        have h2 : (b + 1) * 256 ^ y.length = b * 256 ^ y.length + 256 ^ y.length := by ring
        constructor
        · intro hc; exact absurd hc (by decide)
        · intro _; omega

theorem Compare_inverted_neg_iff (x y : List Nat) (hlen : x.length = y.length)
    (hx : IsBytes x) (hy : IsBytes y) :
    Compare (x.map (fun b => subByte 255 b)) (y.map (fun b => subByte 255 b)) < 0
      ↔ SetBytes y < SetBytes x := by
  rw [Compare_neg_iff_of_length_eq _ _ (by simp [hlen]) (map_subByte_isBytes x)
    (map_subByte_isBytes y)]
  have h1 := SetBytes_map_subByte x hx
  have h2 := SetBytes_map_subByte y hy
  rw [hlen] at h1
  omega

theorem lt_of_Bytes_length_lt (m n : Nat) (h : (Bytes m).length < (Bytes n).length) :
    m < n := by
  have h1 : m < 256 ^ (Bytes m).length := (Bytes_length_le_iff m _).mp (le_refl _)
  have h2 : ¬ n < 256 ^ (Bytes m).length := fun hc => by
    have := (Bytes_length_le_iff n _).mpr hc
    omega
  omega

theorem Compare_Marshal (a b : LegacyDec) (ba bb : List Nat)
    (ha : a.Marshal = Except.ok ba) (hb : b.Marshal = Except.ok bb) :
    a.val < b.val ↔ Compare ba bb < 0 := by
  rw [Marshal_unfold] at ha hb
  have iA := Bytes_isBytes a.val.natAbs
  have iB := Bytes_isBytes b.val.natAbs
  have sA := SetBytes_Bytes a.val.natAbs
  have sB := SetBytes_Bytes b.val.natAbs
  split_ifs at ha with ha1 ha2 <;> split_ifs at hb with hb1 hb2 <;>
    injection ha with ha <;> injection hb with hb <;> subst ha <;> subst hb
  · -- both negative
    rw [Compare_cons_same]
    have eA : subByte 255 (byte (Bytes a.val.natAbs).length)
        = 255 - (Bytes a.val.natAbs).length := by unfold subByte byte; omega
    have eB : subByte 255 (byte (Bytes b.val.natAbs).length)
        = 255 - (Bytes b.val.natAbs).length := by unfold subByte byte; omega
    rw [eA, eB]
    rcases lt_trichotomy (Bytes a.val.natAbs).length (Bytes b.val.natAbs).length
      with h | h | h
    · have := lt_of_Bytes_length_lt _ _ h
      rw [Compare_cons_gt _ _ _ _ (by omega)]
      constructor
      · intro _; omega
      · intro hc; exact absurd hc (by decide)
    · rw [h, Compare_cons_same, Compare_inverted_neg_iff _ _ h iA iB, sA, sB]
      omega
    · have := lt_of_Bytes_length_lt _ _ h
      rw [Compare_cons_lt _ _ _ _ (by omega)]
      constructor
      · intro _; decide
      · intro _; omega
  · -- a negative, b not
    rw [Compare_cons_lt _ _ _ _ (by decide)]
    constructor
    · intro _; decide
    · intro _; omega
  · -- b negative, a not
    rw [Compare_cons_gt _ _ _ _ (by decide)]
    constructor
    · intro _; omega
    · intro hc; exact absurd hc (by decide)
  · -- neither negative
    rw [Compare_cons_same]
    have eA : byte (Bytes a.val.natAbs).length = (Bytes a.val.natAbs).length :=
      byte_of_le _ (by omega)
    have eB : byte (Bytes b.val.natAbs).length = (Bytes b.val.natAbs).length :=
      byte_of_le _ (by omega)
    rw [eA, eB]
    rcases lt_trichotomy (Bytes a.val.natAbs).length (Bytes b.val.natAbs).length
      with h | h | h
    · have := lt_of_Bytes_length_lt _ _ h
      rw [Compare_cons_lt _ _ _ _ h]
      constructor
      · intro _; decide
      · intro _; omega
    · rw [h, Compare_cons_same, Compare_neg_iff_of_length_eq _ _ h iA iB, sA, sB]
      omega
    · have := lt_of_Bytes_length_lt _ _ h
      rw [Compare_cons_gt _ _ _ _ h]
      constructor
      · intro _; omega
      · intro hc; exact absurd hc (by decide)

theorem Compare_swap (x y : List Nat) : 0 < Compare x y ↔ Compare y x < 0 := by
  induction x generalizing y with
  | nil => cases y <;> simp [Compare]
  | cons a x ih =>
    cases y with
    | nil => simp [Compare]
    | cons b y =>
      rcases lt_trichotomy a b with h | h | h
      · rw [Compare_cons_lt a b x y h, Compare_cons_gt b a y x h]; decide
      · subst h; rw [Compare_cons_same, Compare_cons_same]; exact ih y
      · rw [Compare_cons_gt a b x y h, Compare_cons_lt b a y x h]; decide

theorem Marshal_sorted (vs : List LegacyDec) (hfit : ∀ v ∈ vs, v.val.natAbs < 2 ^ 2040)
    (hlt : vs.Pairwise (fun x y => x.val < y.val)) :
    ∃ bzs : List (List Nat),
      List.Forall₂ (fun v bz => v.Marshal = Except.ok bz) vs bzs ∧
      bzs.Pairwise (fun x y => Compare x y < 0) ∧
      ∀ bz ∈ bzs, ∃ v ∈ vs, v.Marshal = Except.ok bz := by
  induction vs with
  | nil => exact ⟨[], List.Forall₂.nil, List.Pairwise.nil, fun _ h => by simp at h⟩
  | cons v vs ih =>
    obtain ⟨hv, hrest⟩ := List.pairwise_cons.mp hlt
    obtain ⟨bzs, hall, hpair, hmem⟩ :=
      ih (fun w hw => hfit w (List.mem_cons_of_mem _ hw)) hrest
    obtain ⟨bz, hbz⟩ := (Marshal_outcome v).2.2.2.mpr (hfit v (List.mem_cons_self _ _))
    refine ⟨bz :: bzs, List.Forall₂.cons hbz hall, List.pairwise_cons.mpr ⟨?_, hpair⟩, ?_⟩
    · intro bz2 hbz2
      obtain ⟨w, hw, hwbz⟩ := hmem bz2 hbz2
      exact (Compare_Marshal v w bz bz2 hbz hwbz).mp (hv w hw)
    · intro bz2 hbz2
      rcases List.mem_cons.mp hbz2 with h | h
      · exact ⟨v, List.mem_cons_self _ _, h ▸ hbz⟩
      · obtain ⟨w, hw, hwbz⟩ := hmem bz2 h
        exact ⟨w, List.mem_cons_of_mem _ hw, hwbz⟩

/-- C2: for all decimals `a` and `b` whose magnitudes fit in 255 bytes
(are below `2^2040`), both are encoded by `Marshal`, and `a < b` holds if and
only if `Marshal a` is smaller than `Marshal b` under `bytes.Compare`
(likewise `b < a` if and only if it is greater). Consequently the encodings
of a numerically sorted list of distinct values that fit are strictly
ascending under `bytes.Compare`. -/
theorem Marshal_order_preserving :
    (∀ a b : LegacyDec, a.val.natAbs < 2 ^ 2040 → b.val.natAbs < 2 ^ 2040 →
      ∃ ba bb, a.Marshal = Except.ok ba ∧ b.Marshal = Except.ok bb ∧
        (a.val < b.val ↔ Compare ba bb < 0) ∧ (b.val < a.val ↔ 0 < Compare ba bb)) ∧
    (∀ vs : List LegacyDec, (∀ v ∈ vs, v.val.natAbs < 2 ^ 2040) →
      (vs.map LegacyDec.val).Sorted (fun x y => x ≤ y) → (vs.map LegacyDec.val).Nodup →
      ∃ bzs : List (List Nat),
        List.Forall₂ (fun v bz => v.Marshal = Except.ok bz) vs bzs ∧
        bzs.Pairwise (fun x y => Compare x y < 0)) := by
  constructor
  · intro a b ha hb
    obtain ⟨ba, hba⟩ := (Marshal_outcome a).2.2.2.mpr ha
    obtain ⟨bb, hbb⟩ := (Marshal_outcome b).2.2.2.mpr hb
    refine ⟨ba, bb, hba, hbb, Compare_Marshal a b ba bb hba hbb, ?_⟩
    rw [Compare_swap]
    exact Compare_Marshal b a bb ba hbb hba
  · intro vs hfit hsorted hnodup
    have hlt : vs.Pairwise (fun x y => x.val < y.val) := by
      have h1 : vs.Pairwise (fun x y => x.val ≤ y.val) := List.pairwise_map.mp hsorted
      have h2 : vs.Pairwise (fun x y => x.val ≠ y.val) := List.pairwise_map.mp hnodup
      exact (h1.and h2).imp (fun h => lt_of_le_of_ne h.1 h.2)
    obtain ⟨bzs, hall, hpair, _⟩ := Marshal_sorted vs hfit hlt
    exact ⟨bzs, hall, hpair⟩

/-- Order preservation at `a = -100` and `b = -10`, whose encodings are
`[0, 254, 155]` and `[0, 254, 245]`. -/
theorem Marshal_order_preserving_witness :
    (LegacyDec.mk (some (-100))).val.natAbs < 2 ^ 2040 ∧
    (LegacyDec.mk (some (-10))).val.natAbs < 2 ^ 2040 ∧
    ∃ ba bb, (LegacyDec.mk (some (-100))).Marshal = Except.ok ba ∧
      (LegacyDec.mk (some (-10))).Marshal = Except.ok bb ∧
      ((LegacyDec.mk (some (-100))).val < (LegacyDec.mk (some (-10))).val
        ↔ Compare ba bb < 0) ∧
      ((LegacyDec.mk (some (-10))).val < (LegacyDec.mk (some (-100))).val
        ↔ 0 < Compare ba bb) :=
  ⟨by norm_num [LegacyDec.val], by norm_num [LegacyDec.val],
    Marshal_order_preserving.1 ⟨some (-100)⟩ ⟨some (-10)⟩ (by norm_num [LegacyDec.val])
      (by norm_num [LegacyDec.val])⟩

/-! ## The absent integer and the scenario of `-1`, `0`, `1` -/

theorem Marshal_none : (LegacyDec.mk none).Marshal = Except.ok [1, 0] := by
  simp [LegacyDec.Marshal, Bytes, byte, Sign]

theorem Marshal_zero : (LegacyDec.mk (some 0)).Marshal = Except.ok [1, 0] := by
  simp [LegacyDec.Marshal, Bytes, byte, Sign]

/-- C11: a decimal whose integer is absent is encoded by `Marshal` to the
same bytes as numeric zero, `[0x01, 0x00]`, and `Unmarshal` of those bytes
succeeds, for every maximum and receiver, with a value that is zero. -/
theorem Marshal_absent_is_zero :
    (LegacyDec.mk none).Marshal = Except.ok [1, 0] ∧
    (LegacyDec.mk (some 0)).Marshal = Except.ok [1, 0] ∧
    (LegacyDec.mk none).Marshal = (LegacyDec.mk (some 0)).Marshal ∧
    ∀ (maxMagnitude : Nat) (recv : LegacyDec),
      ∃ r, LegacyDec.Unmarshal maxMagnitude recv [1, 0] = some (r, none) ∧
        r.IsZero = true ∧ r.val = 0 := by
  refine ⟨Marshal_none, Marshal_zero, by rw [Marshal_none, Marshal_zero], ?_⟩
  intro maxMagnitude recv
  refine ⟨⟨some 0⟩, ?_, rfl, rfl⟩
  rw [Unmarshal_unfold]
  simp [SetBytes]

/-- C12: `Marshal` encodes `-1`, `0` and `1` as `[0x00, 0xFE, 0xFE]`,
`[0x01, 0x00]` and `[0x01, 0x01, 0x01]`: three pairwise distinct byte
sequences, ascending under `bytes.Compare`, the first with sign byte `0x00`
and the other two with sign byte `0x01`. -/
theorem Marshal_minus_one_zero_one :
    ∃ em e0 e1 : List Nat,
      (LegacyDec.mk (some (-1))).Marshal = Except.ok em ∧
      (LegacyDec.mk (some 0)).Marshal = Except.ok e0 ∧
      (LegacyDec.mk (some 1)).Marshal = Except.ok e1 ∧
      em = [0x00, 0xFE, 0xFE] ∧ e0 = [0x01, 0x00] ∧ e1 = [0x01, 0x01, 0x01] ∧
      em ≠ e0 ∧ e0 ≠ e1 ∧ em ≠ e1 ∧
      Compare em e0 < 0 ∧ Compare e0 e1 < 0 ∧ Compare em e1 < 0 ∧
      em[0]? = some 0x00 ∧ e0[0]? = some 0x01 ∧ e1[0]? = some 0x01 := by
  refine ⟨[0x00, 0xFE, 0xFE], [0x01, 0x00], [0x01, 0x01, 0x01], ?_, Marshal_zero, ?_,
    rfl, rfl, rfl, by decide, by decide, by decide, by decide, by decide, by decide,
    rfl, rfl, rfl⟩
  · simp [LegacyDec.Marshal, Bytes, byte, subByte, Sign]
  · simp [LegacyDec.Marshal, Bytes, byte, Sign]

/-! ## The receiver when decoding fails -/

theorem Marshal_isBytes (d : LegacyDec) (bz : List Nat) (h : d.Marshal = Except.ok bz) :
    IsBytes bz := by
  rw [Marshal_unfold] at h
  have hB := Bytes_isBytes d.val.natAbs
  have hI := map_subByte_isBytes (Bytes d.val.natAbs)
  split_ifs at h <;> injection h with h <;> subst h <;> intro b hb <;>
    simp only [List.mem_cons] at hb
  · rcases hb with hb | hb | hb
    · omega
    · subst hb; unfold subByte; omega
    · exact hI b hb
  · rcases hb with hb | hb | hb
    · omega
    · subst hb; unfold byte; omega
    · exact hB b hb

/-- C13, as stated, fails: with the maximum `2^571 - 1` and a receiver that
holds `7`, the 75-byte input that encodes `2^576` is rejected with "decimal
out of range" and the receiver holds `2^576` afterwards. The same happens
for every maximum: decoding the encoding of `maxMagnitude + 1` into a
receiver that holds `0` fails and leaves `maxMagnitude + 1` in it. -/
theorem Unmarshal_failure_overwrites_receiver :
    LegacyDec.Unmarshal (2 ^ 571 - 1) ⟨some 7⟩ ([1, 73, 1] ++ List.replicate 72 0)
      = some (⟨some (2 ^ 576)⟩, some "decimal out of range") ∧
    (LegacyDec.mk (some (2 ^ 576))).val ≠ (LegacyDec.mk (some 7)).val ∧
    (∀ maxMagnitude : Nat, maxMagnitude + 1 < 2 ^ 2040 →
      ∃ (d : LegacyDec) (data : List Nat) (d2 : LegacyDec), IsBytes data ∧
        LegacyDec.Unmarshal maxMagnitude d data = some (d2, some "decimal out of range") ∧
        d2.val ≠ d.val) := by
  refine ⟨?_, ?_, ?_⟩
  · rw [List.cons_append, List.cons_append, Unmarshal_unfold]
    norm_num [SetBytes, List.replicate]
  · norm_num [LegacyDec.val]
  · intro maxMagnitude hfit
    have hv : (LegacyDec.mk (some ((maxMagnitude + 1 : Nat) : Int))).val.natAbs
        = maxMagnitude + 1 := by
      simp only [LegacyDec.val]; omega
    obtain ⟨bz, hbz⟩ :=
      (Marshal_outcome ⟨some ((maxMagnitude + 1 : Nat) : Int)⟩).2.2.2.mpr (by rw [hv]; exact hfit)
    refine ⟨⟨some 0⟩, bz, ⟨some ((maxMagnitude + 1 : Nat) : Int)⟩,
      Marshal_isBytes _ bz hbz, ?_, ?_⟩
    · rw [Unmarshal_of_Marshal maxMagnitude _ ⟨some 0⟩ bz hbz, hv, if_neg (by omega)]
      rfl
    · simp only [LegacyDec.val]; omega

theorem decodedInteger_cons (s l : Nat) (rest : List Nat) (hdata : IsBytes (s :: l :: rest)) :
    decodedInteger (s :: l :: rest) =
      if s = 0 then
        -((SetBytes ((rest.take (subByte 255 l)).map (fun b => subByte 255 b)) : Nat) : Int)
      else ((SetBytes (rest.take l) : Nat) : Int) := by
  have hl : l < 256 := hdata l (by simp)
  have hrest : ∀ n, IsBytes (rest.take n) := fun n b hb =>
    hdata b (List.mem_cons_of_mem _ (List.mem_cons_of_mem _ (List.mem_of_mem_take hb)))
  simp only [decodedInteger, declaredLength, List.getD_cons_zero, List.getD_cons_succ,
    List.drop_succ_cons, List.drop_zero]
  by_cases h0 : s = 0
  · simp only [h0, if_true]
    rw [subByte_255 l hl, map_subByte_eq _ (hrest _), SetBytes_eq_BE]
  · simp only [h0, if_false]
    rw [SetBytes_eq_BE]

/-- C13, amended: whenever `Unmarshal` returns an error, the error is one
of "invalid encoding: too short", "invalid encoding: content length mismatch"
and "decimal out of range". After either of the first two the receiver holds
the integer it stood for before the call. After "decimal out of range" the
receiver has been overwritten: its magnitude exceeds the maximum, and for a
byte sequence `data` it holds exactly the decoded integer, `-BE (map (255 - ·)
content)` if `data[0] = 0` and `BE content` otherwise, where `content =
data[2 : 2+L]` lies within `data`. -/
theorem Unmarshal_failure_receiver (maxMagnitude : Nat) (d d2 : LegacyDec)
    (data : List Nat) (e : String)
    (h : LegacyDec.Unmarshal maxMagnitude d data = some (d2, some e)) :
    (e = "invalid encoding: too short" ∨ e = "invalid encoding: content length mismatch" ∨
      e = "decimal out of range") ∧
    (e = "invalid encoding: too short" ∨ e = "invalid encoding: content length mismatch" →
      d2 = ⟨some d.val⟩ ∧ d2.val = d.val) ∧
    (e = "decimal out of range" →
      maxMagnitude < d2.val.natAbs ∧ 2 ≤ data.length ∧
      (IsBytes data →
        d2 = ⟨some (decodedInteger data)⟩ ∧
        2 + declaredLength (data.getD 0 0) (data.getD 1 0) ≤ data.length)) := by
  have hinit : d.init = ⟨some d.val⟩ := by
    cases d with
    | mk i => cases i <;> rfl
  match data, h with
  | [], h => simp [LegacyDec.Unmarshal] at h
  | [b], h =>
    have h2 : LegacyDec.Unmarshal maxMagnitude d [b]
        = some (d.init, some "invalid encoding: too short") := by
      simp [LegacyDec.Unmarshal, LegacyDec.init]
    rw [h2] at h
    simp only [Option.some.injEq, Prod.mk.injEq] at h
    obtain ⟨h1, h3⟩ := h
    subst h1; subst h3
    exact ⟨Or.inl rfl, fun _ => ⟨hinit, init_val d⟩, fun hc => by simp at hc⟩
  | s :: l :: rest, h =>
    rw [Unmarshal_unfold] at h
    by_cases hlen : rest.length < (if s = 0 then subByte 255 l else l)
    · rw [if_pos hlen] at h
      simp only [Option.some.injEq, Prod.mk.injEq] at h
      obtain ⟨h1, h3⟩ := h
      subst h1; subst h3
      exact ⟨Or.inr (Or.inl rfl), fun _ => ⟨hinit, init_val d⟩, fun hc => by simp at hc⟩
    · rw [if_neg hlen] at h
      have hdl : ∀ hb : IsBytes (s :: l :: rest),
          2 + declaredLength ((s :: l :: rest).getD 0 0) ((s :: l :: rest).getD 1 0)
            ≤ (s :: l :: rest).length := by
        intro hb
        have hl : l < 256 := hb l (by simp)
        rw [subByte_255 l hl] at hlen
        simp only [List.getD_cons_zero, List.getD_cons_succ, declaredLength,
          List.length_cons]
        omega
      by_cases h0 : s = 0
      · rw [if_pos h0] at h
        split_ifs at h with hr <;> simp only [Option.some.injEq, Prod.mk.injEq] at h <;>
          obtain ⟨h1, h3⟩ := h
        · exact absurd h3 (by simp)
        · subst h1; subst h3
          refine ⟨Or.inr (Or.inr rfl), fun hc => by simp at hc, fun _ => ⟨?_, ?_, fun hb =>
            ⟨?_, hdl hb⟩⟩⟩
          · simp only [LegacyDec.val]; omega
          · simp
          · rw [decodedInteger_cons s l rest hb, if_pos h0]
      · rw [if_neg h0] at h
        split_ifs at h with hr <;> simp only [Option.some.injEq, Prod.mk.injEq] at h <;>
          obtain ⟨h1, h3⟩ := h
        · exact absurd h3 (by simp)
        · subst h1; subst h3
          refine ⟨Or.inr (Or.inr rfl), fun hc => by simp at hc, fun _ => ⟨?_, ?_, fun hb =>
            ⟨?_, hdl hb⟩⟩⟩
          · simp only [LegacyDec.val]; omega
          · simp
          · rw [decodedInteger_cons s l rest hb, if_neg h0]

/-- The 75-byte encoding of `-2^576` decoded into a receiver that holds `7`,
with the maximum `2^571 - 1`: the call fails with "decimal out of range" and
the receiver holds `-2^576`, the decoded integer. -/
theorem Unmarshal_failure_receiver_witness :
    LegacyDec.Unmarshal (2 ^ 571 - 1) ⟨some 7⟩ ([0, 182, 254] ++ List.replicate 72 255)
      = some (⟨some (-(2 ^ 576))⟩, some "decimal out of range") ∧
    IsBytes ([0, 182, 254] ++ List.replicate 72 255) ∧
    2 ^ 571 - 1 < (LegacyDec.mk (some (-(2 ^ 576)))).val.natAbs ∧
    LegacyDec.mk (some (-(2 ^ 576)))
      = ⟨some (decodedInteger ([0, 182, 254] ++ List.replicate 72 255))⟩ ∧
    (LegacyDec.mk (some (-(2 ^ 576)))).val ≠ (LegacyDec.mk (some 7)).val :=
  have hU : LegacyDec.Unmarshal (2 ^ 571 - 1) ⟨some 7⟩ ([0, 182, 254] ++ List.replicate 72 255)
      = some (⟨some (-(2 ^ 576))⟩, some "decimal out of range") := by
    rw [List.cons_append, List.cons_append, Unmarshal_unfold]
    norm_num [SetBytes, subByte, List.replicate]
  have hB : IsBytes ([0, 182, 254] ++ List.replicate 72 255) := by
    intro b hb
    simp at hb
    omega
  have h := (Unmarshal_failure_receiver (2 ^ 571 - 1) ⟨some 7⟩ ⟨some (-(2 ^ 576))⟩
    ([0, 182, 254] ++ List.replicate 72 255) "decimal out of range" hU).2.2 rfl
  ⟨hU, hB, h.1, (h.2.2 hB).1, by norm_num [LegacyDec.val]⟩

/-! ## Minimal magnitude bytes -/

theorem Bytes_head_ne_zero (n : Nat) (hn : n ≠ 0) : (Bytes n).head? ≠ some 0 := by
  rw [Bytes_eq_digits, List.head?_reverse,
    List.getLast?_eq_getLast _ (Nat.digits_ne_nil_iff_ne_zero.mpr hn)]
  intro h
  exact Nat.getLast_digit_ne_zero 256 hn (Option.some.inj h)

theorem Bytes_eq_nil_iff (n : Nat) : Bytes n = [] ↔ n = 0 := by
  constructor
  · intro h
    by_contra hn
    rw [Bytes_pos n hn] at h
    simp at h
  · intro h; subst h; exact Bytes_zero

theorem pow_pred_length_le (n : Nat) (hn : n ≠ 0) : 256 ^ ((Bytes n).length - 1) ≤ n := by
  by_contra hlt
  have h1 := (Bytes_length_le_iff n ((Bytes n).length - 1)).mpr (by omega)
  have h2 : (Bytes n).length ≠ 0 := fun h0 =>
    hn ((Bytes_eq_nil_iff n).mp (List.length_eq_zero.mp h0))
  omega

/-- C14: if `Marshal` encodes `v` as `bz`, then `bz` is a sign byte `s`, a
length byte `l` and a content whose length is the length `L` recovered from
the header (`255 - l` if `s = 0`, else `l`). For `v ≠ 0` the content is not
empty, `256^(L-1) ≤ |v| < 256^L`, and the first content byte is not `0x00` if
`v > 0` and not `0xFF` if `v < 0`; for `v = 0` the content is empty. -/
theorem Marshal_minimal (d : LegacyDec) (bz : List Nat) (h : d.Marshal = Except.ok bz) :
    ∃ s l content, bz = s :: l :: content ∧
      content.length = declaredLength s l ∧
      (d.val ≠ 0 →
        content ≠ [] ∧
        256 ^ (declaredLength s l - 1) ≤ d.val.natAbs ∧
        d.val.natAbs < 256 ^ declaredLength s l ∧
        (0 < d.val → content.head? ≠ some 0x00) ∧
        (d.val < 0 → content.head? ≠ some 0xFF)) ∧
      (d.val = 0 → content = []) := by
  rw [Marshal_unfold] at h
  have hB := Bytes_isBytes d.val.natAbs
  have hup : d.val.natAbs < 256 ^ (Bytes d.val.natAbs).length :=
    (Bytes_length_le_iff _ _).mp (le_refl _)
  split_ifs at h with h1 h2 <;> injection h with h <;> subst h
  · have hL : (Bytes d.val.natAbs).length ≤ 255 := by omega
    have e1 : declaredLength 0 (subByte 255 (byte (Bytes d.val.natAbs).length))
        = (Bytes d.val.natAbs).length := by
      simp only [declaredLength, subByte, byte, if_true]; omega
    have hn : d.val.natAbs ≠ 0 := by omega
    refine ⟨_, _, _, rfl, by rw [e1, List.length_map], fun _ => ⟨?_, ?_, ?_, ?_, ?_⟩,
      fun h0 => by omega⟩
    · intro hc
      exact hn ((Bytes_eq_nil_iff _).mp (List.map_eq_nil_iff.mp hc))
    · rw [e1]; exact pow_pred_length_le _ hn
    · rw [e1]; exact hup
    · intro hpos; omega
    · intro _ hc
      have h0 := Bytes_head_ne_zero _ hn
      cases hb : Bytes d.val.natAbs with
      | nil => rw [hb] at hc; simp at hc
      | cons x t =>
        rw [hb] at hc h0
        simp only [List.map_cons, List.head?_cons, Option.some.injEq] at hc h0
        have hx : x < 256 := hB x (by rw [hb]; exact List.mem_cons_self _ _)
        have hx0 : x ≠ 0 := fun hz => h0 (by rw [hz])
        unfold subByte at hc
        omega
  · have hL : (Bytes d.val.natAbs).length ≤ 255 := by omega
    have e1 : declaredLength 1 (byte (Bytes d.val.natAbs).length)
        = (Bytes d.val.natAbs).length := by
      simp only [declaredLength, byte, one_ne_zero, if_false]; omega
    refine ⟨_, _, _, rfl, by rw [e1], fun hv => ?_, fun h0 => ?_⟩
    · have hn : d.val.natAbs ≠ 0 := by omega
      refine ⟨?_, ?_, ?_, ?_, ?_⟩
      · intro hc; exact hn ((Bytes_eq_nil_iff _).mp hc)
      · rw [e1]; exact pow_pred_length_le _ hn
      · rw [e1]; exact hup
      · intro _; exact Bytes_head_ne_zero _ hn
      · intro hneg; omega
    · have hn : d.val.natAbs = 0 := by omega
      rw [hn]; exact Bytes_zero

/-- Minimality at `v = -1000`, encoded as `[0, 253, 252, 23]`. -/
theorem Marshal_minimal_witness :
    (LegacyDec.mk (some (-1000))).Marshal = Except.ok [0, 253, 252, 23] ∧
    ∃ s l content, [0, 253, 252, 23] = s :: l :: content ∧
      content.length = declaredLength s l ∧
      ((LegacyDec.mk (some (-1000))).val ≠ 0 →
        content ≠ [] ∧
        256 ^ (declaredLength s l - 1) ≤ (LegacyDec.mk (some (-1000))).val.natAbs ∧
        (LegacyDec.mk (some (-1000))).val.natAbs < 256 ^ declaredLength s l ∧
        (0 < (LegacyDec.mk (some (-1000))).val → content.head? ≠ some 0x00) ∧
        ((LegacyDec.mk (some (-1000))).val < 0 → content.head? ≠ some 0xFF)) ∧
      ((LegacyDec.mk (some (-1000))).val = 0 → content = []) :=
  have hbz : (LegacyDec.mk (some (-1000))).Marshal = Except.ok [0, 253, 252, 23] := by
    simp [LegacyDec.Marshal, Bytes, byte, subByte, Sign]
  ⟨hbz, Marshal_minimal ⟨some (-1000)⟩ [0, 253, 252, 23] hbz⟩

/-! ## Trailing bytes, prefixes and the sign byte -/

theorem Unmarshal_take (maxMagnitude : Nat) (d : LegacyDec) (s l : Nat)
    (rest extra : List Nat) (hlen : (if s = 0 then subByte 255 l else l) ≤ rest.length) :
    LegacyDec.Unmarshal maxMagnitude d (s :: l :: (rest ++ extra)) =
      LegacyDec.Unmarshal maxMagnitude d
        (s :: l :: rest.take (if s = 0 then subByte 255 l else l)) := by
  rw [Unmarshal_unfold, Unmarshal_unfold]
  by_cases h0 : s = 0
  · simp only [h0, if_true] at hlen ⊢
    have e1 : ¬ (rest ++ extra).length < subByte 255 l := by
      rw [List.length_append]; omega
    have e2 : ¬ (rest.take (subByte 255 l)).length < subByte 255 l := by
      rw [List.length_take]; omega
    rw [if_neg e1, if_neg e2, List.take_append_of_le_length hlen, List.take_take, min_self]
  · simp only [h0, if_false] at hlen ⊢
    have e1 : ¬ (rest ++ extra).length < l := by
      rw [List.length_append]; omega
    have e2 : ¬ (rest.take l).length < l := by
      rw [List.length_take]; omega
    rw [if_neg e1, if_neg e2, List.take_append_of_le_length hlen, List.take_take, min_self]

theorem Marshal_shape (d : LegacyDec) (bz : List Nat) (h : d.Marshal = Except.ok bz) :
    ∃ s l content, bz = s :: l :: content ∧ (s = 0 ∨ s = 1) ∧
      content.length = (if s = 0 then subByte 255 l else l) := by
  rw [Marshal_unfold] at h
  split_ifs at h with h1 h2 <;> injection h with h <;> subst h
  · refine ⟨_, _, _, rfl, Or.inl rfl, ?_⟩
    simp only [if_true, List.length_map]
    unfold subByte byte; omega
  · refine ⟨_, _, _, rfl, Or.inr rfl, ?_⟩
    simp only [one_ne_zero, if_false]
    unfold byte; omega

theorem Unmarshal_of_Marshal_fst (maxMagnitude : Nat) (d recv : LegacyDec) (bz : List Nat)
    (h : d.Marshal = Except.ok bz) :
    (LegacyDec.Unmarshal maxMagnitude recv bz).map Prod.fst = some ⟨some d.val⟩ := by
  rw [Unmarshal_of_Marshal maxMagnitude d recv bz h]
  split_ifs <;> rfl

theorem Unmarshal_Marshal_append (maxMagnitude : Nat) (d recv : LegacyDec)
    (bz extra : List Nat) (h : d.Marshal = Except.ok bz) :
    LegacyDec.Unmarshal maxMagnitude recv (bz ++ extra)
      = LegacyDec.Unmarshal maxMagnitude recv bz := by
  obtain ⟨s, l, content, rfl, _, hlen⟩ := Marshal_shape d bz h
  rw [List.cons_append, List.cons_append, Unmarshal_take maxMagnitude recv s l content extra
    (by omega), ← hlen, List.take_length]

/-- C15: if `Marshal` encodes two decimals that stand for different
integers, the encoding of the one is not a prefix of the encoding of the
other. -/
theorem Marshal_prefix_free (a b : LegacyDec) (ba bb : List Nat)
    (ha : a.Marshal = Except.ok ba) (hb : b.Marshal = Except.ok bb)
    (hne : a.val ≠ b.val) : ¬ ba <+: bb := by
  rintro ⟨t, ht⟩
  have h1 := Unmarshal_of_Marshal_fst 0 a ⟨none⟩ ba ha
  have h2 := Unmarshal_of_Marshal_fst 0 b ⟨none⟩ bb hb
  rw [← ht, Unmarshal_Marshal_append 0 a ⟨none⟩ ba t ha, h1] at h2
  simp only [Option.some.injEq, LegacyDec.mk.injEq] at h2
  exact hne h2

/-- Prefix-freeness at `1` and `257`, encoded as `[1, 1, 1]` and
`[1, 2, 1, 1]`. -/
theorem Marshal_prefix_free_witness :
    (LegacyDec.mk (some 1)).Marshal = Except.ok [1, 1, 1] ∧
    (LegacyDec.mk (some 257)).Marshal = Except.ok [1, 2, 1, 1] ∧
    (LegacyDec.mk (some 1)).val ≠ (LegacyDec.mk (some 257)).val ∧
    ¬ [1, 1, 1] <+: [1, 2, 1, 1] :=
  have h1 : (LegacyDec.mk (some 1)).Marshal = Except.ok [1, 1, 1] := by
    simp [LegacyDec.Marshal, Bytes, byte, Sign]
  have h2 : (LegacyDec.mk (some 257)).Marshal = Except.ok [1, 2, 1, 1] := by
    simp [LegacyDec.Marshal, Bytes, byte, Sign]
  have h3 : (LegacyDec.mk (some 1)).val ≠ (LegacyDec.mk (some 257)).val := by decide
  ⟨h1, h2, h3, Marshal_prefix_free ⟨some 1⟩ ⟨some 257⟩ [1, 1, 1] [1, 2, 1, 1] h1 h2 h3⟩

/-- C16: for `data` with `data[0] = s`, `data[1] = l` a byte and
`len data ≥ 2 + L`, where `L` is the declared length, the slice
`data[0 : 2+L]` exists, and for every `extra` the call `Unmarshal (data ++ extra)`
returns the same error or success and leaves the same receiver as
`Unmarshal` of that slice, as does `Unmarshal data`; the only error such an
input can get is "decimal out of range". -/
theorem Unmarshal_ignores_trailing (maxMagnitude : Nat) (d : LegacyDec)
    (data extra : List Nat) (s l : Nat) (hs : data[0]? = some s) (hl : data[1]? = some l)
    (hbyte : l < 256) (hlen : 2 + declaredLength s l ≤ data.length) :
    ∃ pre, slice data 0 (2 + declaredLength s l) = some pre ∧
      LegacyDec.Unmarshal maxMagnitude d (data ++ extra)
        = LegacyDec.Unmarshal maxMagnitude d pre ∧
      LegacyDec.Unmarshal maxMagnitude d data = LegacyDec.Unmarshal maxMagnitude d pre ∧
      (∀ d2 e, LegacyDec.Unmarshal maxMagnitude d (data ++ extra) = some (d2, some e) →
        e = "decimal out of range") := by
  obtain ⟨rest, rfl⟩ := eq_cons_cons_of_getElem? data s l hs hl
  have hL : declaredLength s l = (if s = 0 then subByte 255 l else l) := by
    unfold declaredLength
    rw [subByte_255 l hbyte]
  simp only [List.length_cons] at hlen
  have hrest : (if s = 0 then subByte 255 l else l) ≤ rest.length := by omega
  have hpre : slice (s :: l :: rest) 0 (2 + declaredLength s l)
      = some (s :: l :: rest.take (if s = 0 then subByte 255 l else l)) := by
    have e1 : 2 + declaredLength s l ≤ rest.length + 1 + 1 := by omega
    have e2 : 2 + declaredLength s l = (declaredLength s l + 1) + 1 := by omega
    simp only [slice, List.length_cons, Nat.zero_le, true_and, e1, if_true, List.drop_zero,
      Nat.sub_zero]
    rw [e2, List.take_succ_cons, List.take_succ_cons, hL]
  have happ := Unmarshal_take maxMagnitude d s l rest extra hrest
  refine ⟨_, hpre, happ, ?_, ?_⟩
  · have := Unmarshal_take maxMagnitude d s l rest [] hrest
    rwa [List.append_nil] at this
  · intro d2 e he
    rw [List.cons_append, List.cons_append, Unmarshal_unfold,
      if_neg (by rw [List.length_append]; omega)] at he
    split_ifs at he <;> simp only [Option.some.injEq, Prod.mk.injEq] at he <;>
      obtain ⟨_, h3⟩ := he
    all_goals first
      | exact absurd h3 (by simp)
      | exact h3.symm

/-- The encoding `[0, 253, 252, 23]` of `-1000` followed by the bytes
`[5, 6]` decodes as the encoding alone does. -/
theorem Unmarshal_ignores_trailing_witness :
    (253 < 256) ∧ (2 + declaredLength 0 253 ≤ [0, 253, 252, 23].length) ∧
    ∃ pre, slice [0, 253, 252, 23] 0 (2 + declaredLength 0 253) = some pre ∧
      LegacyDec.Unmarshal (2 ^ 571 - 1) ⟨some 7⟩ ([0, 253, 252, 23] ++ [5, 6])
        = LegacyDec.Unmarshal (2 ^ 571 - 1) ⟨some 7⟩ pre ∧
      LegacyDec.Unmarshal (2 ^ 571 - 1) ⟨some 7⟩ [0, 253, 252, 23]
        = LegacyDec.Unmarshal (2 ^ 571 - 1) ⟨some 7⟩ pre ∧
      (∀ d2 e, LegacyDec.Unmarshal (2 ^ 571 - 1) ⟨some 7⟩ ([0, 253, 252, 23] ++ [5, 6])
        = some (d2, some e) → e = "decimal out of range") :=
  ⟨by decide, by decide,
    Unmarshal_ignores_trailing (2 ^ 571 - 1) ⟨some 7⟩ [0, 253, 252, 23] [5, 6] 0 253
      rfl rfl (by decide) (by decide)⟩

/-- C17: for `data` of at least 2 bytes whose first byte is not `0`,
`Unmarshal data` returns the same error or success and leaves the same
receiver as `Unmarshal` of `data` with its first byte replaced by `0x01`.
So `[0x02, 0x01, 0x05]` and `[0x01, 0x01, 0x05]`, two different inputs, both
decode to `5` when `5` is within the maximum, and `Marshal` never produces
the first: the first byte of an encoding is `0` or `1`. -/
theorem Unmarshal_nonzero_sign (maxMagnitude : Nat) (d : LegacyDec) (data : List Nat)
    (h2 : 2 ≤ data.length) (hs : data[0]? ≠ some 0) :
    LegacyDec.Unmarshal maxMagnitude d data
      = LegacyDec.Unmarshal maxMagnitude d (data.set 0 0x01) ∧
    (5 ≤ maxMagnitude →
      LegacyDec.Unmarshal maxMagnitude d [0x02, 0x01, 0x05] = some (⟨some 5⟩, none) ∧
      LegacyDec.Unmarshal maxMagnitude d [0x01, 0x01, 0x05] = some (⟨some 5⟩, none)) ∧
    [0x02, 0x01, 0x05] ≠ [0x01, 0x01, 0x05] ∧
    (∀ v : LegacyDec, v.Marshal ≠ Except.ok [0x02, 0x01, 0x05]) ∧
    (∀ (v : LegacyDec) (bz : List Nat), v.Marshal = Except.ok bz →
      bz[0]? = some 0 ∨ bz[0]? = some 1) := by
  have hfirst : ∀ (v : LegacyDec) (bz : List Nat), v.Marshal = Except.ok bz →
      bz[0]? = some 0 ∨ bz[0]? = some 1 := by
    intro v bz hbz
    obtain ⟨s, l, content, rfl, hs01, _⟩ := Marshal_shape v bz hbz
    rcases hs01 with h | h <;> subst h
    · exact Or.inl rfl
    · exact Or.inr rfl
  refine ⟨?_, ?_, by decide, ?_, hfirst⟩
  · match data, h2, hs with
    | s :: l :: rest, _, hs =>
      have hs0 : s ≠ 0 := fun h => hs (by rw [h]; rfl)
      rw [List.set_cons_zero, Unmarshal_unfold, Unmarshal_unfold]
      simp only [hs0, one_ne_zero, if_false]
  · intro h5
    constructor
    · rw [Unmarshal_unfold]
      simp [SetBytes, h5]
    · rw [Unmarshal_unfold]
      simp [SetBytes, h5]
  · intro v hv
    rcases hfirst v _ hv with h | h <;> simp at h

/-- The input `[2, 1, 5]` decodes as `[1, 1, 5]` does. -/
theorem Unmarshal_nonzero_sign_witness :
    (2 ≤ [2, 1, 5].length) ∧ ([2, 1, 5][0]? ≠ some 0) ∧
    LegacyDec.Unmarshal (2 ^ 571 - 1) ⟨some 7⟩ [2, 1, 5]
      = LegacyDec.Unmarshal (2 ^ 571 - 1) ⟨some 7⟩ ([2, 1, 5].set 0 0x01) :=
  ⟨by decide, by decide,
    (Unmarshal_nonzero_sign (2 ^ 571 - 1) ⟨some 7⟩ [2, 1, 5] (by decide) (by decide)).1⟩

/-! ## Totality of the decoder and byte arithmetic -/

theorem Unmarshal_isSome (maxMagnitude : Nat) (d : LegacyDec) (data : List Nat) :
    ∃ d2 err, LegacyDec.Unmarshal maxMagnitude d data = some (d2, err) := by
  match data with
  | [] => exact ⟨d, none, rfl⟩
  | [b] =>
    exact ⟨d.init, some "invalid encoding: too short", by
      simp [LegacyDec.Unmarshal, LegacyDec.init]⟩
  | s :: l :: rest =>
    rw [Unmarshal_unfold]
    split_ifs <;> exact ⟨_, _, rfl⟩

theorem mapM_checkedSub (l : List Nat) (hl : IsBytes l) :
    l.mapM (fun b => checkedSub 255 b) = Except.ok (l.map (fun b => subByte 255 b)) := by
  induction l with
  | nil => rfl
  | cons a t ih =>
    have ha : a < 256 := hl a (List.mem_cons_self _ _)
    have ht := ih (fun x hx => hl x (List.mem_cons_of_mem _ hx))
    have h1 : checkedSub 255 a = Except.ok (subByte 255 a) := by
      unfold checkedSub subByte
      rw [if_pos (by omega)]
      congr 1
      omega
    rw [List.mapM_cons, h1, ht]
    rfl

theorem UnmarshalChecked_eq (maxMagnitude : Nat) (d : LegacyDec) (data : List Nat)
    (hdata : IsBytes data) (r : LegacyDec × Option String)
    (h : LegacyDec.Unmarshal maxMagnitude d data = some r) :
    LegacyDec.UnmarshalChecked maxMagnitude d data = Except.ok r := by
  match data, hdata, h with
  | [], _, h =>
    simp [LegacyDec.Unmarshal] at h
    subst h
    rfl
  | [b], _, h =>
    simp [LegacyDec.Unmarshal] at h
    subst h
    simp [LegacyDec.UnmarshalChecked]
  | s :: l :: rest, hdata, h =>
    have hl : l < 256 := hdata l (by simp)
    have h0 : ¬ rest.length + 1 + 1 < 2 := by omega
    have hsub : checkedSub 255 l = Except.ok (subByte 255 l) := by
      unfold checkedSub subByte
      rw [if_pos (by omega)]
      congr 1
      omega
    rw [Unmarshal_unfold] at h
    by_cases hs : s = 0
    · subst hs
      simp only [if_true] at h
      by_cases hlen : rest.length < subByte 255 l
      · rw [if_pos hlen] at h
        have h2 : rest.length + 1 + 1 < 2 + subByte 255 l := by omega
        simp only [Option.some.injEq] at h
        subst h
        simp [LegacyDec.UnmarshalChecked, checkedIndex, hsub, bind, Except.bind, h2,
          LegacyDec.init]
      · rw [if_neg hlen] at h
        have h2 : ¬ rest.length + 1 + 1 < 2 + subByte 255 l := by omega
        have h3 : 2 + subByte 255 l ≤ rest.length + 1 + 1 := by omega
        have hm := mapM_checkedSub (rest.take (subByte 255 l))
          (fun b hb => hdata b (List.mem_cons_of_mem _ (List.mem_cons_of_mem _
            (List.mem_of_mem_take hb))))
        simp only [LegacyDec.UnmarshalChecked, checkedIndex, checkedSlice, hsub, bind,
          Except.bind, h2, h3, h0, List.length_cons, List.getElem?_cons_zero,
          List.getElem?_cons_succ, if_true, if_false, Nat.add_sub_cancel_left,
          List.drop_succ_cons, List.drop_zero, reduceCtorEq, and_self, le_add_iff_nonneg_right,
          zero_le, one_ne_zero, Nat.le_add_right, true_and, hm]
        split_ifs at h with hr <;> simp only [Option.some.injEq] at h <;> subst h <;>
          simp [LegacyDec.IsInValidRange, LegacyDec.val] <;>
          (rw [← List.map_take]; omega)
    · simp only [hs, if_false] at h
      by_cases hlen : rest.length < l
      · rw [if_pos hlen] at h
        have h2 : rest.length + 1 + 1 < 2 + l := by omega
        simp only [Option.some.injEq] at h
        subst h
        simp [LegacyDec.UnmarshalChecked, checkedIndex, hs, bind, Except.bind, h2,
          LegacyDec.init]
      · rw [if_neg hlen] at h
        have h2 : ¬ rest.length + 1 + 1 < 2 + l := by omega
        have h3 : 2 + l ≤ rest.length + 1 + 1 := by omega
        simp only [LegacyDec.UnmarshalChecked, checkedIndex, checkedSlice, hs, bind,
          Except.bind, h2, h3, h0, List.length_cons, List.getElem?_cons_zero,
          List.getElem?_cons_succ, if_true, if_false, Nat.add_sub_cancel_left,
          List.drop_succ_cons, List.drop_zero, reduceCtorEq, and_self, le_add_iff_nonneg_right,
          zero_le, one_ne_zero, Nat.le_add_right, true_and]
        split_ifs at h with hr <;> simp only [Option.some.injEq] at h <;> subst h <;>
          simp [LegacyDec.IsInValidRange, LegacyDec.val, hr]

theorem MarshalChecked_eq (d : LegacyDec) : d.MarshalChecked = Except.ok d.Marshal := by
  have hm := mapM_checkedSub (Bytes d.val.natAbs) (Bytes_isBytes _)
  cases d with
  | mk i =>
    cases i with
    | none =>
      simp [LegacyDec.MarshalChecked, LegacyDec.Marshal, Bytes_zero, Sign, checkedByte, bind,
        Except.bind, byte]
    | some x =>
      simp only [LegacyDec.val] at hm
      by_cases hL : (Bytes x.natAbs).length > 255
      · simp [LegacyDec.MarshalChecked, LegacyDec.Marshal, hL]
      · have hb : checkedByte (Bytes x.natAbs).length = Except.ok (Bytes x.natAbs).length := by
          unfold checkedByte; rw [if_pos (by omega)]
        have hb2 : byte (Bytes x.natAbs).length = (Bytes x.natAbs).length :=
          byte_of_le _ (by omega)
        have hs : checkedSub 255 (Bytes x.natAbs).length
            = Except.ok (subByte 255 (Bytes x.natAbs).length) := by
          unfold checkedSub subByte
          rw [if_pos (by omega)]
          congr 1
          omega
        by_cases hneg : Sign x < 0
        · simp only [LegacyDec.MarshalChecked, LegacyDec.Marshal, hL, hneg, hb, hb2, hs, hm,
            bind, Except.bind, if_true, if_false]
        · simp [LegacyDec.MarshalChecked, LegacyDec.Marshal, hL, hneg, hb, hb2, bind,
            Except.bind]

/-- C18: for every byte sequence `data` and every receiver, `Unmarshal`
returns a receiver state and an error or success, and the decoder with
checked accesses and checked byte arithmetic returns the same without a
fault: no index or slice expression of `Unmarshal` is out of bounds and none
of its subtractions `255 - data[1]`, `255 - b` wraps modulo `256`. For every
decimal the encoder with checked byte arithmetic returns what `Marshal`
returns, without a fault: `byte(len rawBytes)`, `255 - byte(len rawBytes)`
and `255 - b` are only computed under the guard `len rawBytes ≤ 255` and do
not wrap. On these operands the modular operations equal the exact integer
differences. -/
theorem Unmarshal_total_no_wrap (maxMagnitude : Nat) (d : LegacyDec) (data : List Nat)
    (hdata : IsBytes data) :
    (∃ d2 err, LegacyDec.Unmarshal maxMagnitude d data = some (d2, err) ∧
      LegacyDec.UnmarshalChecked maxMagnitude d data = Except.ok (d2, err)) ∧
    (∀ v : LegacyDec, v.MarshalChecked = Except.ok v.Marshal) ∧
    (∀ b ∈ data, ((subByte 255 b : Nat) : Int) = 255 - (b : Int)) ∧
    (∀ v : LegacyDec, (Bytes v.val.natAbs).length ≤ 255 →
      byte (Bytes v.val.natAbs).length = (Bytes v.val.natAbs).length ∧
      ((subByte 255 (byte (Bytes v.val.natAbs).length) : Nat) : Int)
        = 255 - ((Bytes v.val.natAbs).length : Int) ∧
      ∀ b ∈ Bytes v.val.natAbs, ((subByte 255 b : Nat) : Int) = 255 - (b : Int)) := by
  refine ⟨?_, MarshalChecked_eq, ?_, ?_⟩
  · obtain ⟨d2, err, h⟩ := Unmarshal_isSome maxMagnitude d data
    exact ⟨d2, err, h, UnmarshalChecked_eq maxMagnitude d data hdata (d2, err) h⟩
  · intro b hb
    have := hdata b hb
    unfold subByte; omega
  · intro v hL
    refine ⟨byte_of_le _ hL, ?_, ?_⟩
    · unfold subByte byte; omega
    · intro b hb
      have := Bytes_isBytes v.val.natAbs b hb
      unfold subByte; omega

/-- Totality and checked arithmetic at the input `[0, 253, 252, 23]`, the
encoding of `-1000`, whose length byte and content are both inverted, and at
the encoder for `-1000`. -/
theorem Unmarshal_total_no_wrap_witness :
    IsBytes [0, 253, 252, 23] ∧
    (∃ d2 err, LegacyDec.Unmarshal (2 ^ 571 - 1) ⟨some 7⟩ [0, 253, 252, 23] = some (d2, err) ∧
      LegacyDec.UnmarshalChecked (2 ^ 571 - 1) ⟨some 7⟩ [0, 253, 252, 23]
        = Except.ok (d2, err)) ∧
    (LegacyDec.mk (some (-1000))).MarshalChecked
      = Except.ok (LegacyDec.mk (some (-1000))).Marshal :=
  have h := Unmarshal_total_no_wrap (2 ^ 571 - 1) ⟨some 7⟩ [0, 253, 252, 23] (by decide)
  ⟨by decide, h.1, h.2.1 ⟨some (-1000)⟩⟩

/-! ## The frame of `MarshalTo` -/

theorem copy_length (data bz : List Nat) (h : bz.length ≤ data.length) :
    (copy data bz).length = data.length := by
  have hmin : min data.length bz.length = bz.length := Nat.min_eq_right h
  simp only [copy, hmin, List.take_length, List.length_append, List.length_drop]
  omega

theorem copy_getElem? (data bz : List Nat) (k : Nat) (h : bz.length ≤ data.length)
    (hk : bz.length ≤ k) : (copy data bz)[k]? = data[k]? := by
  have hmin : min data.length bz.length = bz.length := Nat.min_eq_right h
  simp only [copy, hmin, List.take_length]
  rw [List.getElem?_append_right hk, List.getElem?_drop]
  congr 1
  omega

/-- C19: `MarshalTo` never changes its receiver nor the length of the
buffer; when it succeeds with `n` bytes written, every buffer byte at an
index `≥ n` is what it was; when it fails, with the error of `Marshal` or
with "buffer too small", the whole buffer is what it was. -/
theorem MarshalTo_frame (d : LegacyDec) (data : List Nat) :
    (d.MarshalTo data).recv = d ∧
    (d.MarshalTo data).data.length = data.length ∧
    ((d.MarshalTo data).err = none →
      ∀ k, (d.MarshalTo data).n ≤ k → (d.MarshalTo data).data[k]? = data[k]?) ∧
    ((d.MarshalTo data).err ≠ none → (d.MarshalTo data).data = data) := by
  cases hM : d.Marshal with
  | error e =>
    have h : d.MarshalTo data = ⟨data, 0, some e, d⟩ := by
      simp only [LegacyDec.MarshalTo, hM]
    rw [h]
    exact ⟨rfl, rfl, fun hc => by simp at hc, fun _ => rfl⟩
  | ok bz =>
    by_cases hsmall : bz.length > data.length
    · have h : d.MarshalTo data = ⟨data, 0, some "buffer too small", d⟩ := by
        simp only [LegacyDec.MarshalTo, hM, if_pos hsmall]
      rw [h]
      exact ⟨rfl, rfl, fun hc => by simp at hc, fun _ => rfl⟩
    · have hle : bz.length ≤ data.length := by omega
      have h : d.MarshalTo data = ⟨copy data bz, bz.length, none, d⟩ := by
        simp only [LegacyDec.MarshalTo, hM, if_neg hsmall]
      rw [h]
      exact ⟨rfl, copy_length data bz hle, fun _ k hk => copy_getElem? data bz k hle hk,
        fun hc => absurd rfl hc⟩

/-- The frame of `MarshalTo` for `1000` written into the six-byte buffer
`[9, 8, 7, 6, 5, 4]`: four bytes are written and the bytes `5, 4` stay. -/
theorem MarshalTo_frame_witness :
    ((LegacyDec.mk (some 1000)).MarshalTo [9, 8, 7, 6, 5, 4]).err = none ∧
    ((LegacyDec.mk (some 1000)).MarshalTo [9, 8, 7, 6, 5, 4]).n = 4 ∧
    ((LegacyDec.mk (some 1000)).MarshalTo [9, 8, 7, 6, 5, 4]).data[4]? = some 5 ∧
    ((LegacyDec.mk (some 1000)).MarshalTo [9, 8, 7, 6, 5, 4]).data[5]? = some 4 ∧
    ((LegacyDec.mk (some 1000)).MarshalTo [9, 8, 7, 6, 5, 4]).recv = ⟨some 1000⟩ :=
  have hbz : (LegacyDec.mk (some 1000)).Marshal = Except.ok [1, 2, 3, 232] := by
    simp [LegacyDec.Marshal, Bytes, byte, Sign]
  have hM : (LegacyDec.mk (some 1000)).MarshalTo [9, 8, 7, 6, 5, 4]
      = ⟨[1, 2, 3, 232, 5, 4], 4, none, ⟨some 1000⟩⟩ := by
    simp [LegacyDec.MarshalTo, hbz, copy]
  have hn : ((LegacyDec.mk (some 1000)).MarshalTo [9, 8, 7, 6, 5, 4]).n = 4 := by rw [hM]
  have herr : ((LegacyDec.mk (some 1000)).MarshalTo [9, 8, 7, 6, 5, 4]).err = none := by
    rw [hM]
  have h := MarshalTo_frame ⟨some 1000⟩ [9, 8, 7, 6, 5, 4]
  ⟨herr, hn, h.2.2.1 herr 4 (by rw [hn]), h.2.2.1 herr 5 (by rw [hn]; decide), h.1⟩

end LegacyDecCodec

namespace BankTypes

/-! ## The hook loop -/

theorem Join_eq_none_iff {ε : Type} (a b : Option (GoError ε)) :
    Join a b = none ↔ a = none ∧ b = none := by
  cases a <;> cases b <;> simp [Join]

theorem errorsOf_Join {ε : Type} (a : Option (GoError ε)) (x : Option ε) :
    errorsOf (Join a (x.map GoError.hook)) = errorsOf a ++ [x].filterMap id := by
  cases a <;> cases x <;> simp [Join, errorsOf, GoError.flatten]

theorem foldl_BeforeSend {α ε : Type} (hs : List (SendHooks α ε)) (args : α)
    (calls : List (Nat × α)) (acc : Option (GoError ε)) :
    (List.foldl
      (fun (st : List (Nat × α) × Option (GoError ε)) (hook : SendHooks α ε) =>
        (st.1 ++ [(hook.name, args)],
          Join st.2 ((hook.BeforeSend st.1 args).map GoError.hook)))
      (calls, acc) hs).1 = calls ++ hs.map (fun hook => (hook.name, args)) ∧
    ((List.foldl
      (fun (st : List (Nat × α) × Option (GoError ε)) (hook : SendHooks α ε) =>
        (st.1 ++ [(hook.name, args)],
          Join st.2 ((hook.BeforeSend st.1 args).map GoError.hook)))
      (calls, acc) hs).2 = none ↔ acc = none ∧ ∀ e ∈ hookErrors hs args calls, e = none) ∧
    errorsOf (List.foldl
      (fun (st : List (Nat × α) × Option (GoError ε)) (hook : SendHooks α ε) =>
        (st.1 ++ [(hook.name, args)],
          Join st.2 ((hook.BeforeSend st.1 args).map GoError.hook)))
      (calls, acc) hs).2 = errorsOf acc ++ (hookErrors hs args calls).filterMap id := by
  induction hs generalizing calls acc with
  | nil => simp [hookErrors]
  | cons hook rest ih =>
    obtain ⟨h1, h2, h3⟩ := ih (calls ++ [(hook.name, args)])
      (Join acc ((hook.BeforeSend calls args).map GoError.hook))
    simp only [List.foldl_cons]
    refine ⟨?_, ?_, ?_⟩
    · rw [h1]; simp
    · rw [h2, Join_eq_none_iff]
      simp only [hookErrors, List.mem_cons, forall_eq_or_imp, Option.map_eq_none']
      tauto
    · rw [h3, errorsOf_Join]
      cases hx : hook.BeforeSend calls args <;> simp [hookErrors, hx]

theorem hookErrors_length {α ε : Type} (hs : List (SendHooks α ε)) (args : α)
    (calls : List (Nat × α)) : (hookErrors hs args calls).length = hs.length := by
  induction hs generalizing calls with
  | nil => rfl
  | cons hook rest ih => simp [hookErrors, ih]

/-- C20: `MultiSendHooks.BeforeSend` calls every hook of the list exactly
once, in list order and with the same arguments, whatever the earlier hooks
returned: the record of calls grows by one entry per hook, in order. It
returns nil if and only if every hook returned nil, so nil for the empty
list; otherwise the hook errors that the returned error wraps are exactly the
non-nil errors the hooks returned, in order. -/
theorem BeforeSend_runs_every_hook {α ε : Type} (hs : List (SendHooks α ε)) (args : α)
    (calls : List (Nat × α)) :
    (MultiSendHooks.BeforeSend (NewMultiSendHooks hs) args calls).1
      = calls ++ hs.map (fun hook => (hook.name, args)) ∧
    (hookErrors hs args calls).length = hs.length ∧
    ((MultiSendHooks.BeforeSend (NewMultiSendHooks hs) args calls).2 = none
      ↔ ∀ e ∈ hookErrors hs args calls, e = none) ∧
    errorsOf (MultiSendHooks.BeforeSend (NewMultiSendHooks hs) args calls).2
      = (hookErrors hs args calls).filterMap id ∧
    MultiSendHooks.BeforeSend (NewMultiSendHooks ([] : List (SendHooks α ε))) args calls
      = (calls, none) := by
  obtain ⟨h1, h2, h3⟩ := foldl_BeforeSend hs args calls none
  refine ⟨h1, hookErrors_length hs args calls, ?_, ?_, rfl⟩
  · exact h2.trans (by simp)
  · exact h3.trans (by simp [errorsOf])

end BankTypes
